import Mathlib

/-!
The import-tree walk of `main.go` (goimporttree)

A shallow embedding of `IsStandardPackage`, the two filters built in `main`, and
`DepsPrinter.Print`, followed by the properties proved about them.

Modelling conventions.

* Go strings are Lean `String`s.  `sort.Strings` compares byte-wise; on valid UTF-8 this is
  the code-point order, which is the order of `String` in Lean.
* `build.Import(importPath, srcDir, 0)` is a parameter `r : Resolver ε`, a function of the
  two strings that either fails with an error of type `ε` or returns a `Package`.
* `d.printed` (a Go map used as a set) is a list of keys, newest first; only membership in
  it is ever observed.
* Standard output and the calls to the resolver are recorded, in order, as a list of
  `Event`s; `render` gives the text of the printed lines.
* `Print` is recursive without a syntactic bound, so the embedding takes a recursion-depth
  budget (`fuel`).  A run that exhausts it stops with `Outcome.outOfFuel`, having recorded
  the events of the real execution up to that point.
* `PrintAt` is `Print` with a ghost depth counter recorded on every event; it is used only
  to speak of the depth of a line in the tree, and `PrintAt_erase` shows it is `Print`.
-/

namespace GoImportTree

/-! ## Data model -/

/-- The fields of `build.Package` that `Print` reads. -/
structure Package where
  ImportPath : String
  Dir : String
  Imports : List String
  TestImports : List String
  deriving DecidableEq, Repr

/-- The resolver `build.Import(importPath, srcDir, 0)`. -/
abbrev Resolver (ε : Type) := String → String → Except ε Package

/-- The type `FilterFunc`. -/
abbrev FilterFunc := String → Bool

/-- What a run does that can be observed: a call of the resolver, or a printed line.
`line p1 path false` is `fmt.Printf("%s%s\n", p1, path)` and `line p1 path true` is
`fmt.Printf("%s%s (see above)\n", p1, path)`. -/
inductive Event where
  | resolve (importPath srcDir : String)
  | line (p1 path : String) (seen : Bool)
  deriving DecidableEq, Repr

/-- The value returned by `Print`: `nil`, an error, or (embedding only) the depth budget
ran out. -/
inductive Outcome (ε : Type) where
  | nil
  | err (e : ε)
  | outOfFuel
  deriving DecidableEq, Repr

/-- The effect of a (part of a) run: the events it produced, the printed set it leaves
behind and what it returned. -/
structure Run (ε : Type) where
  events : List Event
  printed : List String
  result : Outcome ε
  deriving DecidableEq, Repr

/-! ## `IsStandardPackage` and the filters of `main` -/

/-- `strings.SplitN(s, sep, n)` for a one-character separator, on the characters of `s`:
at most `n` pieces, the last one holding the unsplit rest; `n = 0` gives no piece. -/
def SplitNChars (sep : Char) : Nat → List Char → List (List Char)
  | 0, _ => []
  | 1, s => [s]
  | n + 2, s =>
    match s.span (fun c => c != sep) with
    | (_, []) => [s]
    | (before, _ :: after) => before :: SplitNChars sep (n + 1) after

/-- `strings.SplitN(s, sep, n)` for a one-character separator. -/
def SplitN (s : String) (sep : Char) (n : Nat) : List String :=
  (SplitNChars sep n s.toList).map String.mk

/-- `strings.Contains(s, string(c))`. -/
def Contains (s : String) (c : Char) : Bool :=
  s.toList.contains c

/-- `IsStandardPackage` of `main.go`.  The index `x[0]` would panic on an empty slice;
that branch is kept apart as the `[]` case. -/
def IsStandardPackage (importPath : String) : Bool :=
  match SplitN importPath '/' 2 with
  | x0 :: _ => !Contains x0 '.'
  | [] => true

/-- The filter built in `main` when `--standard` is set. -/
def filterStandard : FilterFunc :=
  fun importPath => importPath != "C"

/-- The filter built in `main` when `--standard` is unset. -/
def filterDefault : FilterFunc :=
  fun importPath => importPath != "C" && !IsStandardPackage importPath

/-- The `filter` variable of `main`, selected by the `--standard` flag. -/
def mainFilter (withStandard : Bool) : FilterFunc :=
  if withStandard then filterStandard else filterDefault

/-! ## `DepsPrinter.Print` -/

/-- One pass of `for _, im := range ims { if !d.keep(im) { continue }; depsUnique[im] = true }`
over the key list of `depsUnique`. -/
def addKept (keep : FilterFunc) (depsUnique : List String) (ims : List String) : List String :=
  ims.foldl (fun m im => if !keep im then m else if im ∈ m then m else m ++ [im]) depsUnique

/-- The keys of `depsUnique` after both loops of `Print` (lines 52-66). -/
def depsUnique (keep : FilterFunc) (withTests : Bool) (pkg : Package) : List String :=
  let m := addKept keep [] pkg.Imports
  if withTests then addKept keep m pkg.TestImports else m

/-- The lexicographic comparison `a < b` of two strings given by their characters, as
done by Go's `<` on strings. -/
def lexLt : List Char → List Char → Bool
  | _, [] => false
  | [], _ :: _ => true
  | a :: as, b :: bs =>
    if a.toNat < b.toNat then true else if b.toNat < a.toNat then false else lexLt as bs

/-- The comparison `a <= b` on strings, that is `!(b < a)`. -/
def strLe (a b : String) : Bool :=
  !lexLt b.toList a.toList

/-- Insertion of `x` into a sorted slice, before the first element not below it. -/
def insertSorted (x : String) : List String → List String
  | [] => [x]
  | y :: ys => if strLe x y then x :: y :: ys else y :: insertSorted x ys

/-- `sort.Strings`: the slice in increasing order.  (Go's algorithm differs, but `Print`
sorts distinct keys, and the increasing arrangement of distinct strings is unique, see
`sortStrings_perm_invariant`.) -/
def sortStrings (l : List String) : List String :=
  l.foldr insertSorted []

/-- The slice `deps` after `sort.Strings(deps)` (lines 68-73). -/
def sortedDeps (keep : FilterFunc) (withTests : Bool) (pkg : Package) : List String :=
  sortStrings (depsUnique keep withTests pkg)

/-- The glyphs `(s1, s2)` chosen for the child at index `i` of `n` (lines 76-83). -/
def glyphs (n i : Nat) : String × String :=
  if i != n - 1 then ("|- ", "|  ") else ("`- ", "   ")

/-- The loop `for i, dep := range deps` (lines 75-87), from index `i` on, `deps` being what
is left of a slice of length `n`.  `call dep s1 s2 printed` is the recursive call
`d.Print(dep, pkg.Dir, false, p2+s1, p2+s2)`. -/
def printDeps {ε : Type} (call : String → String → String → List String → Run ε) (n : Nat) :
    Nat → List String → List String → Run ε
  | _, [], printed => ⟨[], printed, .nil⟩
  | i, dep :: rest, printed =>
    let run := call dep (glyphs n i).1 (glyphs n i).2 printed
    match run.result with
    | .nil =>
      let more := printDeps call n (i + 1) rest run.printed
      ⟨run.events ++ more.events, more.printed, more.result⟩
    | res => ⟨run.events, run.printed, res⟩

/-- `DepsPrinter.Print` (lines 37-90), with `d.keep = keep`, `d.printed = printed` on entry
and a recursion-depth budget `fuel`. -/
def Print {ε : Type} (r : Resolver ε) (keep : FilterFunc) :
    Nat → List String → String → String → Bool → String → String → Run ε
  | 0, printed, _, _, _, _, _ => ⟨[], printed, .outOfFuel⟩
  | fuel + 1, printed, importPath, srcDir, withTests, p1, p2 =>
    match r importPath srcDir with
    | .error err => ⟨[.resolve importPath srcDir], printed, .err err⟩
    | .ok pkg =>
      if pkg.ImportPath ∈ printed then
        ⟨[.resolve importPath srcDir, .line p1 pkg.ImportPath true], printed, .nil⟩
      else
        let deps := sortedDeps keep withTests pkg
        let run := printDeps
          (fun dep s1 s2 printed' =>
            Print r keep fuel printed' dep pkg.Dir false (p2 ++ s1) (p2 ++ s2))
          deps.length 0 deps (pkg.ImportPath :: printed)
        ⟨.resolve importPath srcDir :: .line p1 pkg.ImportPath false :: run.events,
          run.printed, run.result⟩

/-- The text of a printed line, without its newline. -/
def Event.text : Event → Option String
  | .resolve _ _ => none
  | .line p1 path false => some (p1 ++ path)
  | .line p1 path true => some (p1 ++ path ++ " (see above)")

/-- The lines written to standard output by a sequence of events. -/
def render (es : List Event) : List String :=
  es.filterMap Event.text

/-- The canonical paths of the lines printed without the " (see above)" suffix, in order. -/
def expanded : List Event → List String
  | [] => []
  | .line _ path false :: es => path :: expanded es
  | _ :: es => expanded es

/-- The resolver calls recorded in a sequence of events, in order. -/
def resolves : List Event → List (String × String)
  | [] => []
  | .resolve importPath srcDir :: es => (importPath, srcDir) :: resolves es
  | _ :: es => resolves es

/-- The branch prefixes of the printed lines, in order. -/
def prefixes : List Event → List String
  | [] => []
  | .line p1 _ _ :: es => p1 :: prefixes es
  | _ :: es => prefixes es

/-- The events `es`, produced from the printed set `S` on, carry the " (see above)" mark on
exactly the lines whose path is in the printed set when they are printed. -/
def Consistent : List String → List Event → Prop
  | _, [] => True
  | S, .resolve _ _ :: es => Consistent S es
  | S, .line _ path seen :: es =>
    (seen = true ↔ path ∈ S) ∧ Consistent (if seen then S else path :: S) es

/-- A run from the printed set `S` is consistent, and the printed set it leaves is `S`
extended by the paths of the unmarked lines it printed. -/
def Tracks {ε : Type} (S : List String) (run : Run ε) : Prop :=
  Consistent S run.events ∧ run.printed = (expanded run.events).reverse ++ S

/-! ## The dependency graph a resolver presents -/

/-- The arguments of a call of `Print` that decide what it walks:
`(importPath, srcDir, withTests)`. -/
abbrev Call := String × String × Bool

/-- `Calls r keep c c'`: the call `c` resolves to a package and, when it expands it, makes
the recursive call `c'` (line 84): a kept import, the package's directory, no tests. -/
def Calls {ε : Type} (r : Resolver ε) (keep : FilterFunc) (c c' : Call) : Prop :=
  ∃ pkg, r c.1 c.2.1 = .ok pkg ∧ c'.1 ∈ sortedDeps keep c.2.2 pkg ∧ c'.2.1 = pkg.Dir ∧
    c'.2.2 = false

/-- The calls reachable from `root` through edges that pass the inclusion predicate. -/
def Reach {ε : Type} (r : Resolver ε) (keep : FilterFunc) (root c : Call) : Prop :=
  Relation.ReflTransGen (Calls r keep) root c

/-- The package named `P` has been walked in `es`: some call reachable from `c0` resolves
to it, and each of its children was resolved and printed on a line of `es`. -/
def WalkedFrom {ε : Type} (r : Resolver ε) (keep : FilterFunc) (c0 : Call) (es : List Event)
    (P : String) : Prop :=
  ∃ c pkg, Reach r keep c0 c ∧ r c.1 c.2.1 = .ok pkg ∧ pkg.ImportPath = P ∧
    ∀ dep ∈ sortedDeps keep c.2.2 pkg, ∃ pkg' q seen, r dep pkg.Dir = .ok pkg' ∧
      [Event.resolve dep pkg.Dir, Event.line q pkg'.ImportPath seen] <:+: es

/-- The canonical paths on the children's own lines of an expanded package, in output
order: what each sorted child resolves to against the package's directory. -/
def childCanonicals {ε : Type} (r : Resolver ε) (keep : FilterFunc) (withTests : Bool)
    (pkg : Package) : List String :=
  (sortedDeps keep withTests pkg).filterMap fun dep =>
    match r dep pkg.Dir with
    | .ok child => some child.ImportPath
    | .error _ => none

/-- The children's lines of an expanded package are in increasing order of canonical
path, without repetition. -/
def ChildrenInCanonicalOrder {ε : Type} (r : Resolver ε) (keep : FilterFunc) (withTests : Bool)
    (pkg : Package) : Prop :=
  (childCanonicals r keep withTests pkg).Sorted (· < ·)

/-- Every resolver call recorded in `es` succeeds. -/
def AllResolved {ε : Type} (r : Resolver ε) (es : List Event) : Prop :=
  ∀ c ∈ resolves es, ∃ pkg, r c.1 c.2 = .ok pkg

/-- A run that returns an error ends with the one failing resolver call, whose error it
returns; a run that returns no error made no failing call. -/
def FailsAtEnd {ε : Type} (r : Resolver ε) (run : Run ε) : Prop :=
  (∀ e, run.result = .err e →
    ∃ pre a b, run.events = pre ++ [Event.resolve a b] ∧ r a b = .error e ∧ AllResolved r pre) ∧
  ((∀ e, run.result ≠ .err e) → AllResolved r run.events)

/-- The first "/"-delimited segment of a path: the text before its first "/", or the
whole path when it has no "/". -/
def firstSegment (importPath : String) : String :=
  String.mk (importPath.toList.takeWhile (fun c => c != '/'))

/-- A resolver's answer with the test imports of the package left out. -/
def withoutTestImports {ε : Type} (a : Except ε Package) : Except ε Package :=
  match a with
  | .ok pkg => .ok ⟨pkg.ImportPath, pkg.Dir, pkg.Imports, []⟩
  | .error e => .error e

/-! ## A small dependency graph: `app` imports `libA` and `libB`, `libA` imports `libB` -/

/-- The resolver of the scenario: the canonical path is the requested path. -/
def demoResolver : Resolver String := fun importPath _ =>
  if importPath = "app.io" then .ok ⟨"app.io", "/src/app.io", ["lib.io/a", "lib.io/b"], []⟩
  else if importPath = "lib.io/a" then .ok ⟨"lib.io/a", "/src/lib.io/a", ["lib.io/b"], []⟩
  else if importPath = "lib.io/b" then .ok ⟨"lib.io/b", "/src/lib.io/b", [], []⟩
  else .error ("cannot find package " ++ importPath)

/-- The package `z.io/app` of `vendorResolver`. -/
def vendorApp : Package :=
  ⟨"z.io/app", "/z.io/app", ["z.io/app/y", "b.io/y", "a.io/x", "./y"], []⟩

/-- A resolver as `go/build` behaves with a vendor directory and a relative import: from
the directory of `z.io/app`, `a.io/x` resolves to the vendored copy and `./y` to
`z.io/app/y`. -/
def vendorResolver : Resolver String := fun importPath srcDir =>
  if importPath = "z.io/app" then .ok vendorApp
  else if importPath = "a.io/x" ∧ srcDir = "/z.io/app" then
    .ok ⟨"z.io/app/vendor/a.io/x", "/z.io/app/vendor/a.io/x", [], []⟩
  else if importPath = "b.io/y" then .ok ⟨"b.io/y", "/b.io/y", [], []⟩
  else if importPath = "z.io/app/y" ∨ (importPath = "./y" ∧ srcDir = "/z.io/app") then
    .ok ⟨"z.io/app/y", "/z.io/app/y", [], []⟩
  else .error ("cannot find package " ++ importPath)

/-- The scenario with the names as the specification writes them: `app` imports `libA`
and `libB`, `libA` imports `libB`, `libB` imports nothing. -/
def scenarioResolver : Resolver String := fun importPath _ =>
  if importPath = "app" then .ok ⟨"app", "/src/app", ["libA", "libB"], []⟩
  else if importPath = "libA" then .ok ⟨"libA", "/src/libA", ["libB"], []⟩
  else if importPath = "libB" then .ok ⟨"libB", "/src/libB", [], []⟩
  else .error ("cannot find package " ++ importPath)

/-- The resolver `demoResolver` with test imports added to the two libraries. -/
def demoResolverTests : Resolver String := fun importPath _ =>
  if importPath = "app.io" then .ok ⟨"app.io", "/src/app.io", ["lib.io/a", "lib.io/b"], []⟩
  else if importPath = "lib.io/a" then
    .ok ⟨"lib.io/a", "/src/lib.io/a", ["lib.io/b"], ["check.io/t"]⟩
  else if importPath = "lib.io/b" then .ok ⟨"lib.io/b", "/src/lib.io/b", [], ["app.io"]⟩
  else .error ("cannot find package " ++ importPath)

/-- The root call of the scenario. -/
def demoRoot : Call := ("app.io", "/", false)

/-- A topological rank of the scenario's graph. -/
def demoRank (importPath : String) : Nat :=
  if importPath = "app.io" then 2 else if importPath = "lib.io/a" then 1 else 0

/-- Two answers of a resolver that agree up to the order and multiplicity of the import
lists: the same error, or packages with the same canonical path and directory whose
`Imports` have the same elements and whose `TestImports` have the same elements. -/
def SameSets {ε : Type} (a b : Except ε Package) : Prop :=
  match a, b with
  | .ok p, .ok q =>
    p.ImportPath = q.ImportPath ∧ p.Dir = q.Dir ∧ (∀ x, x ∈ p.Imports ↔ x ∈ q.Imports) ∧
      (∀ x, x ∈ p.TestImports ↔ x ∈ q.TestImports)
  | .error e, .error e' => e = e'
  | _, _ => False

/-- The resolver `demoResolver` with the import lists permuted and with repetitions. -/
def demoResolverShuffled : Resolver String := fun importPath _ =>
  if importPath = "app.io" then
    .ok ⟨"app.io", "/src/app.io", ["lib.io/b", "lib.io/a", "lib.io/b"], []⟩
  else if importPath = "lib.io/a" then
    .ok ⟨"lib.io/a", "/src/lib.io/a", ["lib.io/b", "lib.io/b"], []⟩
  else if importPath = "lib.io/b" then .ok ⟨"lib.io/b", "/src/lib.io/b", [], []⟩
  else .error ("cannot find package " ++ importPath)

/-- The number of entries of `U` that are not in the printed set `S`: the measure that
bounds the depth of the recursion. -/
def unprinted (U S : List String) : Nat :=
  (U.filter (fun p => decide (p ∉ S))).length

/-- A resolver with cycles: `a.io` imports itself and `b.io`, and `b.io` imports `a.io`. -/
def cycleResolver : Resolver String := fun importPath _ =>
  if importPath = "a.io" then .ok ⟨"a.io", "/src/a.io", ["a.io", "b.io"], []⟩
  else if importPath = "b.io" then .ok ⟨"b.io", "/src/b.io", ["a.io"], []⟩
  else .error ("cannot find package " ++ importPath)

/-- The call `(a, b)` is a recursive call of the package that the call `c` resolves to:
`a` is a kept import (or test import) of that package and `b` is its directory. -/
def ImportedBy {ε : Type} (r : Resolver ε) (keep : FilterFunc) (a b : String)
    (c : String × String) : Prop :=
  ∃ pkg, r c.1 c.2 = .ok pkg ∧ keep a = true ∧ (a ∈ pkg.Imports ∨ a ∈ pkg.TestImports) ∧
    b = pkg.Dir

/-- Every resolver call in `es` is a recursive call of a package resolved before it, by a
call in `earlier` or by an earlier call of `es`. -/
def Originated {ε : Type} (r : Resolver ε) (keep : FilterFunc) :
    List (String × String) → List Event → Prop
  | _, [] => True
  | earlier, .resolve a b :: es =>
    (∃ c ∈ earlier, ImportedBy r keep a b c) ∧ Originated r keep ((a, b) :: earlier) es
  | earlier, .line _ _ _ :: es => Originated r keep earlier es

/-- The canonical paths named on the printed lines, in order. -/
def paths : List Event → List String
  | [] => []
  | .line _ path _ :: es => path :: paths es
  | _ :: es => paths es

/-- No printed line names a path that `IsStandardPackage` accepts. -/
def NoStandardLine (es : List Event) : Prop :=
  ∀ path ∈ paths es, IsStandardPackage path = false

/-- A resolver as `go/build` behaves for a package `app` kept directly under `GOPATH/src`:
its relative import `./sub` resolves to `app/sub`, `os` resolves, and `fmt` cannot be
found. -/
def aliasResolver : Resolver String := fun importPath srcDir =>
  if importPath = "app" then .ok ⟨"app", "/src/app", ["os", "fmt", "./sub"], []⟩
  else if importPath = "./sub" ∧ srcDir = "/src/app" then
    .ok ⟨"app/sub", "/src/app/sub", [], []⟩
  else if importPath = "os" then .ok ⟨"os", "/go/src/os", [], []⟩
  else .error ("cannot find package " ++ importPath)

/-- A package whose imports are all standard-library paths, and the sentinel "C". -/
def toolPackage : Package :=
  ⟨"x.io/tool", "/src/x.io/tool", ["os", "C", "fmt", "os"], []⟩

/-- A resolver for `toolPackage` and the standard packages it imports. -/
def toolResolver : Resolver String := fun importPath _ =>
  if importPath = "x.io/tool" then .ok toolPackage
  else if importPath = "fmt" then .ok ⟨"fmt", "/go/src/fmt", ["os"], []⟩
  else if importPath = "os" then .ok ⟨"os", "/go/src/os", [], []⟩
  else .error ("cannot find package " ++ importPath)

/-! ## `Print` with a depth counter

The same function with a ghost argument `depth`, the number of calls of `Print` above the
current one; it is recorded with every event and influences nothing else. -/

/-- A run whose events carry the depth of the call that produced them. -/
structure DepthRun (ε : Type) where
  events : List (Nat × Event)
  printed : List String
  result : Outcome ε

/-- The run without the depths. -/
def DepthRun.erase {ε : Type} (run : DepthRun ε) : Run ε :=
  ⟨run.events.map Prod.snd, run.printed, run.result⟩

/-- The loop `for i, dep := range deps` (lines 75-87) over depth-annotated runs. -/
def printDepsAt {ε : Type} (call : String → String → String → List String → DepthRun ε)
    (n : Nat) : Nat → List String → List String → DepthRun ε
  | _, [], printed => ⟨[], printed, .nil⟩
  | i, dep :: rest, printed =>
    let run := call dep (glyphs n i).1 (glyphs n i).2 printed
    match run.result with
    | .nil =>
      let more := printDepsAt call n (i + 1) rest run.printed
      ⟨run.events ++ more.events, more.printed, more.result⟩
    | res => ⟨run.events, run.printed, res⟩

/-- `DepsPrinter.Print` (lines 37-90) called at recursion depth `depth`. -/
def PrintAt {ε : Type} (r : Resolver ε) (keep : FilterFunc) :
    Nat → Nat → List String → String → String → Bool → String → String → DepthRun ε
  | 0, _, printed, _, _, _, _, _ => ⟨[], printed, .outOfFuel⟩
  | fuel + 1, depth, printed, importPath, srcDir, withTests, p1, p2 =>
    match r importPath srcDir with
    | .error err => ⟨[(depth, .resolve importPath srcDir)], printed, .err err⟩
    | .ok pkg =>
      if pkg.ImportPath ∈ printed then
        ⟨[(depth, .resolve importPath srcDir), (depth, .line p1 pkg.ImportPath true)],
          printed, .nil⟩
      else
        let deps := sortedDeps keep withTests pkg
        let run := printDepsAt
          (fun dep s1 s2 printed' =>
            PrintAt r keep fuel (depth + 1) printed' dep pkg.Dir false (p2 ++ s1) (p2 ++ s2))
          deps.length 0 deps (pkg.ImportPath :: printed)
        ⟨(depth, .resolve importPath srcDir) :: (depth, .line p1 pkg.ImportPath false) ::
            run.events, run.printed, run.result⟩

/-- The concatenation of a list of glyphs. -/
def concatGlyphs : List String → String
  | [] => ""
  | g :: gs => g ++ concatGlyphs gs

/-- A branch prefix of depth `k`: `k - 1` continuation glyphs ("|  " or "   ") followed by
one branch glyph ("|- " or "`- "). -/
def IsBranchPrefix (k : Nat) (q : String) : Prop :=
  ∃ gs last, gs.length + 1 = k ∧ (∀ g ∈ gs, g = "|  " ∨ g = "   ") ∧
    (last = "|- " ∨ last = "`- ") ∧ q = concatGlyphs gs ++ last

/-! ## Inputs on which two claims fail as stated -/

/-- A resolver as `go/build` behaves for local imports outside `GOPATH`: the canonical
path of a local package stays the path as written, so `./a` written in `/w` and `./a`
written in `/w/b` are two packages with one canonical path; only the second has a
dependency, `c.io/dep`. -/
def localResolver : Resolver String := fun importPath srcDir =>
  if importPath = "." then .ok ⟨".", "/w", ["./a", "./b"], []⟩
  else if importPath = "./b" ∧ srcDir = "/w" then .ok ⟨"./b", "/w/b", ["./a"], []⟩
  else if importPath = "./a" ∧ srcDir = "/w" then .ok ⟨"./a", "/w/a", [], []⟩
  else if importPath = "./a" ∧ srcDir = "/w/b" then .ok ⟨"./a", "/w/b/a", ["c.io/dep"], []⟩
  else if importPath = "c.io/dep" then .ok ⟨"c.io/dep", "/gopath/src/c.io/dep", [], []⟩
  else .error ("cannot find package " ++ importPath)

/-- The root call of the walk over `localResolver`. -/
def localRoot : Call := (".", "/w", false)

/-- A topological rank of the calls of `localResolver`. -/
def localRank (c : Call) : Nat :=
  if c.1 = "." then 3
  else if c.1 = "./b" ∧ c.2.1 = "/w" then 2
  else if c.1 = "./a" ∧ c.2.1 = "/w/b" then 1
  else 0

/-- The conclusion of the claim about graphs without cycles: from some depth budget on the
walk from the empty printed set returns `nil` and every package reachable from the root
has exactly one unmarked line. -/
def VisitsAllReachable {ε : Type} (r : Resolver ε) (keep : FilterFunc) (root : Call) : Prop :=
  ∃ N, ∀ fuel, N ≤ fuel →
    (Print r keep fuel [] root.1 root.2.1 root.2.2 "" "").result = .nil ∧
    ∀ c pkg, Reach r keep root c → r c.1 c.2.1 = .ok pkg →
      (expanded (Print r keep fuel [] root.1 root.2.1 root.2.2 "" "").events).count
        pkg.ImportPath = 1

/-- Every import of `pkg` other than "C" has been resolved against the directory of `pkg`
in `es`. -/
def AllImportsWalked (pkg : Package) (es : List Event) : Prop :=
  ∀ p ∈ pkg.Imports, p ≠ "C" → (p, pkg.Dir) ∈ resolves es

/-- A package that imports two standard packages. -/
def brokenToolPackage : Package :=
  ⟨"x.io/tool", "/src/x.io/tool", ["os", "fmt"], []⟩

/-- A resolver for `brokenToolPackage` in which `os` resolves and `fmt` cannot be found. -/
def brokenToolResolver : Resolver String := fun importPath _ =>
  if importPath = "x.io/tool" then .ok brokenToolPackage
  else if importPath = "os" then .ok ⟨"os", "/go/src/os", [], []⟩
  else .error ("cannot find package " ++ importPath)

/-! ## Strings and sorting -/

theorem char_lt_iff (x y : Char) : x.toNat < y.toNat ↔ x < y := Iff.rfl

theorem char_eq_of_not_lt {a b : Char} (h1 : ¬ a.toNat < b.toNat) (h2 : ¬ b.toNat < a.toNat) :
    a = b := by
  have h : a.toNat = b.toNat := by omega
  exact Char.ext (UInt32.ext (by simpa [Char.toNat, UInt32.toNat] using h))

/-- The comparison `lexLt` decides the lexicographic order of character lists. -/
theorem lexLt_iff (a b : List Char) : lexLt a b = true ↔ a < b := by
  induction a generalizing b with
  | nil =>
    cases b with
    | nil => simp [lexLt]
    | cons b bs => simpa [lexLt] using (List.Lex.nil : List.Lex (· < ·) [] (b :: bs))
  | cons a as ih =>
    cases b with
    | nil => simp [lexLt]
    | cons b bs =>
      simp only [lexLt]
      by_cases h1 : a.toNat < b.toNat
      · simp only [h1, if_true, true_iff]
        exact List.Lex.rel ((char_lt_iff _ _).1 h1)
      · by_cases h2 : b.toNat < a.toNat
        · simp only [h1, h2, if_true, if_false, Bool.false_eq_true, false_iff]
          intro hlt
          have hlt' : (b :: bs) < (a :: as) := List.Lex.rel ((char_lt_iff _ _).1 h2)
          exact lt_asymm hlt hlt'
        · simp only [h1, h2, if_false]
          have hab := char_eq_of_not_lt h1 h2
          subst hab
          rw [ih bs]
          exact (List.Lex.cons_iff (r := (· < ·))).symm

/-- The comparison `strLe` decides the order of `String`. -/
theorem strLe_iff (a b : String) : strLe a b = true ↔ a ≤ b := by
  unfold strLe
  rw [Bool.not_eq_true', ← Bool.not_eq_true, lexLt_iff, ← String.lt_iff_toList_lt, not_lt]

theorem insertSorted_eq (x : String) (ys : List String) :
    insertSorted x ys = ys.orderedInsert (fun a b => a ≤ b) x := by
  induction ys with
  | nil => rfl
  | cons y ys ih => simp only [insertSorted, List.orderedInsert, ih, strLe_iff]

theorem sortStrings_eq (l : List String) :
    sortStrings l = l.insertionSort (fun a b => a ≤ b) := by
  induction l with
  | nil => rfl
  | cons x xs ih =>
    simp only [sortStrings, List.foldr_cons, List.insertionSort] at ih ⊢
    rw [insertSorted_eq, ih]

theorem sortStrings_sorted (l : List String) : (sortStrings l).Sorted (· ≤ ·) := by
  rw [sortStrings_eq]
  exact List.sorted_insertionSort _ l

theorem sortStrings_perm (l : List String) : (sortStrings l).Perm l := by
  rw [sortStrings_eq]
  exact List.perm_insertionSort _ l

theorem mem_sortStrings {l : List String} {p : String} : p ∈ sortStrings l ↔ p ∈ l :=
  (sortStrings_perm l).mem_iff

/-- The result of `sortStrings` does not depend on the order of its input (the iteration
order of the map `depsUnique`). -/
theorem sortStrings_perm_invariant {l l' : List String} (h : l.Perm l') :
    sortStrings l = sortStrings l' :=
  List.eq_of_perm_of_sorted ((sortStrings_perm l).trans (h.trans (sortStrings_perm l').symm))
    (sortStrings_sorted l) (sortStrings_sorted l')

theorem addKept_nodup (keep : FilterFunc) (ims m : List String) (hm : m.Nodup) :
    (addKept keep m ims).Nodup := by
  induction ims generalizing m with
  | nil => simpa [addKept] using hm
  | cons im ims ih =>
    simp only [addKept, List.foldl_cons]
    apply ih
    by_cases hk : keep im = true
    · by_cases hmem : im ∈ m
      · simpa [hk, hmem] using hm
      · simp only [hk, hmem, Bool.not_true, Bool.false_eq_true, if_false]
        exact List.Nodup.append hm (List.nodup_singleton im) (by simpa using hmem)
    · simpa [hk] using hm

theorem mem_addKept (keep : FilterFunc) (ims m : List String) (p : String) :
    p ∈ addKept keep m ims ↔ p ∈ m ∨ (keep p = true ∧ p ∈ ims) := by
  induction ims generalizing m with
  | nil => simp [addKept]
  | cons im ims ih =>
    simp only [addKept, List.foldl_cons]
    have := ih (if (!keep im) = true then m else if im ∈ m then m else m ++ [im])
    simp only [addKept] at this
    rw [this]
    by_cases hk : keep im = true
    · by_cases hmem : im ∈ m
      · simp only [hk, hmem, Bool.not_true, Bool.false_eq_true, if_false, if_true,
          List.mem_cons]
        constructor
        · rintro (h | ⟨h1, h2⟩)
          · exact Or.inl h
          · exact Or.inr ⟨h1, Or.inr h2⟩
        · rintro (h | ⟨h1, h2 | h2⟩)
          · exact Or.inl h
          · exact Or.inl (h2 ▸ hmem)
          · exact Or.inr ⟨h1, h2⟩
      · simp only [hk, hmem, Bool.not_true, Bool.false_eq_true, if_false, List.mem_append,
          List.mem_cons, List.not_mem_nil, or_false]
        constructor
        · rintro ((h | h) | ⟨h1, h2⟩)
          · exact Or.inl h
          · exact Or.inr ⟨h ▸ hk, Or.inl h⟩
          · exact Or.inr ⟨h1, Or.inr h2⟩
        · rintro (h | ⟨h1, h2 | h2⟩)
          · exact Or.inl (Or.inl h)
          · exact Or.inl (Or.inr h2)
          · exact Or.inr ⟨h1, h2⟩
    · simp only [hk, Bool.not_false, if_true, List.mem_cons]
      constructor
      · rintro (h | ⟨h1, h2⟩)
        · exact Or.inl h
        · exact Or.inr ⟨h1, Or.inr h2⟩
      · rintro (h | ⟨h1, h2 | h2⟩)
        · exact Or.inl h
        · exact absurd (h2 ▸ h1) hk
        · exact Or.inr ⟨h1, h2⟩

theorem depsUnique_nodup (keep : FilterFunc) (withTests : Bool) (pkg : Package) :
    (depsUnique keep withTests pkg).Nodup := by
  unfold depsUnique
  have h0 := addKept_nodup keep pkg.Imports [] List.nodup_nil
  cases withTests with
  | false => simpa using h0
  | true => simpa using addKept_nodup keep pkg.TestImports _ h0

theorem mem_depsUnique (keep : FilterFunc) (withTests : Bool) (pkg : Package) (p : String) :
    p ∈ depsUnique keep withTests pkg ↔
      keep p = true ∧ (p ∈ pkg.Imports ∨ (withTests = true ∧ p ∈ pkg.TestImports)) := by
  unfold depsUnique
  cases withTests with
  | false => simp [mem_addKept]
  | true =>
    simp only [if_true, mem_addKept, List.not_mem_nil, false_or, true_and]
    tauto

theorem mem_sortedDeps (keep : FilterFunc) (withTests : Bool) (pkg : Package) (p : String) :
    p ∈ sortedDeps keep withTests pkg ↔
      keep p = true ∧ (p ∈ pkg.Imports ∨ (withTests = true ∧ p ∈ pkg.TestImports)) := by
  unfold sortedDeps
  rw [mem_sortStrings, mem_depsUnique]

theorem sortedDeps_sorted (keep : FilterFunc) (withTests : Bool) (pkg : Package) :
    (sortedDeps keep withTests pkg).Sorted (· < ·) := by
  unfold sortedDeps
  exact (sortStrings_sorted _).lt_of_le
    ((sortStrings_perm _).nodup_iff.2 (depsUnique_nodup keep withTests pkg))

theorem sortedDeps_nodup (keep : FilterFunc) (withTests : Bool) (pkg : Package) :
    (sortedDeps keep withTests pkg).Nodup :=
  (sortedDeps_sorted keep withTests pkg).nodup

/-! ## Unfolding `printDeps` and `Print` -/

section Unfold

variable {ε : Type}

theorem printDeps_nil (call : String → String → String → List String → Run ε) (n i : Nat)
    (printed : List String) : printDeps call n i [] printed = ⟨[], printed, .nil⟩ := by
  simp [printDeps]

theorem printDeps_cons_nil (call : String → String → String → List String → Run ε) (n i : Nat)
    (dep : String) (rest printed : List String)
    (h : (call dep (glyphs n i).1 (glyphs n i).2 printed).result = .nil) :
    printDeps call n i (dep :: rest) printed =
      ⟨(call dep (glyphs n i).1 (glyphs n i).2 printed).events ++
          (printDeps call n (i + 1) rest
            (call dep (glyphs n i).1 (glyphs n i).2 printed).printed).events,
        (printDeps call n (i + 1) rest
            (call dep (glyphs n i).1 (glyphs n i).2 printed).printed).printed,
        (printDeps call n (i + 1) rest
            (call dep (glyphs n i).1 (glyphs n i).2 printed).printed).result⟩ := by
  simp only [printDeps, h]

theorem printDeps_cons_stop (call : String → String → String → List String → Run ε) (n i : Nat)
    (dep : String) (rest printed : List String)
    (h : (call dep (glyphs n i).1 (glyphs n i).2 printed).result ≠ .nil) :
    printDeps call n i (dep :: rest) printed = call dep (glyphs n i).1 (glyphs n i).2 printed := by
  cases hrun : call dep (glyphs n i).1 (glyphs n i).2 printed with
  | mk es S res =>
    rw [hrun] at h
    cases res with
    | nil => exact absurd rfl h
    | err e => simp only [printDeps, hrun]
    | outOfFuel => simp only [printDeps, hrun]

theorem Print_zero (r : Resolver ε) (keep : FilterFunc) (printed : List String)
    (importPath srcDir : String) (withTests : Bool) (p1 p2 : String) :
    Print r keep 0 printed importPath srcDir withTests p1 p2 = ⟨[], printed, .outOfFuel⟩ := rfl

theorem Print_error (r : Resolver ε) (keep : FilterFunc) (fuel : Nat) (printed : List String)
    (importPath srcDir : String) (withTests : Bool) (p1 p2 : String) (e : ε)
    (h : r importPath srcDir = .error e) :
    Print r keep (fuel + 1) printed importPath srcDir withTests p1 p2 =
      ⟨[.resolve importPath srcDir], printed, .err e⟩ := by
  simp only [Print, h]

theorem Print_seen (r : Resolver ε) (keep : FilterFunc) (fuel : Nat) (printed : List String)
    (importPath srcDir : String) (withTests : Bool) (p1 p2 : String) (pkg : Package)
    (h : r importPath srcDir = .ok pkg) (hmem : pkg.ImportPath ∈ printed) :
    Print r keep (fuel + 1) printed importPath srcDir withTests p1 p2 =
      ⟨[.resolve importPath srcDir, .line p1 pkg.ImportPath true], printed, .nil⟩ := by
  simp only [Print, h, hmem, if_true]

theorem Print_expand (r : Resolver ε) (keep : FilterFunc) (fuel : Nat) (printed : List String)
    (importPath srcDir : String) (withTests : Bool) (p1 p2 : String) (pkg : Package)
    (h : r importPath srcDir = .ok pkg) (hmem : pkg.ImportPath ∉ printed) :
    Print r keep (fuel + 1) printed importPath srcDir withTests p1 p2 =
      ⟨.resolve importPath srcDir :: .line p1 pkg.ImportPath false ::
          (printDeps (fun dep s1 s2 printed' =>
              Print r keep fuel printed' dep pkg.Dir false (p2 ++ s1) (p2 ++ s2))
            (sortedDeps keep withTests pkg).length 0 (sortedDeps keep withTests pkg)
            (pkg.ImportPath :: printed)).events,
        (printDeps (fun dep s1 s2 printed' =>
              Print r keep fuel printed' dep pkg.Dir false (p2 ++ s1) (p2 ++ s2))
            (sortedDeps keep withTests pkg).length 0 (sortedDeps keep withTests pkg)
            (pkg.ImportPath :: printed)).printed,
        (printDeps (fun dep s1 s2 printed' =>
              Print r keep fuel printed' dep pkg.Dir false (p2 ++ s1) (p2 ++ s2))
            (sortedDeps keep withTests pkg).length 0 (sortedDeps keep withTests pkg)
            (pkg.ImportPath :: printed)).result⟩ := by
  simp only [Print, h, hmem, if_false]

end Unfold

/-! ## Event lists -/

theorem expanded_append (a b : List Event) : expanded (a ++ b) = expanded a ++ expanded b := by
  induction a with
  | nil => rfl
  | cons e es ih =>
    cases e with
    | resolve ip d => simpa [expanded] using ih
    | line q path seen => cases seen <;> simpa [expanded] using ih

theorem resolves_append (a b : List Event) : resolves (a ++ b) = resolves a ++ resolves b := by
  induction a with
  | nil => rfl
  | cons e es ih =>
    cases e with
    | resolve ip d => simpa [resolves] using ih
    | line q path seen => simpa [resolves] using ih

theorem prefixes_append (a b : List Event) : prefixes (a ++ b) = prefixes a ++ prefixes b := by
  induction a with
  | nil => rfl
  | cons e es ih =>
    cases e with
    | resolve ip d => simpa [prefixes] using ih
    | line q path seen => simpa [prefixes] using ih

theorem render_append (a b : List Event) : render (a ++ b) = render a ++ render b := by
  simp [render, List.filterMap_append]

theorem consistent_append (S : List String) (a b : List Event) :
    Consistent S (a ++ b) ↔ Consistent S a ∧ Consistent ((expanded a).reverse ++ S) b := by
  induction a generalizing S with
  | nil => simp [Consistent, expanded]
  | cons e es ih =>
    cases e with
    | resolve ip d => simpa [Consistent, expanded] using ih S
    | line q path seen =>
      cases seen with
      | true =>
        simp only [List.cons_append, Consistent, expanded, if_true, and_assoc, List.append_eq]
        rw [ih S]
      | false =>
        simp only [List.cons_append, Consistent, expanded, Bool.false_eq_true, if_false,
          List.reverse_cons, List.append_assoc, List.singleton_append, and_assoc, List.append_eq,
          List.nil_append]
        rw [ih (path :: S)]

/-- In a consistent event list, a line is marked exactly when its path is in the initial
printed set or on an earlier unmarked line. -/
theorem consistent_line {S : List String} {pre post : List Event} {q path : String}
    {seen : Bool} (h : Consistent S (pre ++ .line q path seen :: post)) :
    seen = true ↔ path ∈ S ∨ path ∈ expanded pre := by
  rw [consistent_append] at h
  have h2 := h.2
  simp only [Consistent] at h2
  rw [h2.1, List.mem_append, List.mem_reverse]
  exact or_comm

/-- In a consistent event list the unmarked lines name distinct paths, none of them in the
initial printed set. -/
theorem consistent_nodup {S : List String} {es : List Event} (h : Consistent S es) :
    (expanded es).Nodup ∧ ∀ p ∈ expanded es, p ∉ S := by
  induction es generalizing S with
  | nil => simp [expanded]
  | cons e es ih =>
    cases e with
    | resolve ip d => simpa [expanded] using ih (by simpa [Consistent] using h)
    | line q path seen =>
      cases seen with
      | true =>
        simp only [Consistent, if_true] at h
        simpa [expanded] using ih h.2
      | false =>
        simp only [Consistent, Bool.false_eq_true, if_false, false_iff] at h
        have ih' := ih h.2
        simp only [expanded, List.nodup_cons, List.mem_cons]
        refine ⟨⟨fun hmem => ?_, ih'.1⟩, ?_⟩
        · exact ih'.2 path hmem (List.mem_cons_self _ _)
        · rintro p (hp | hp)
          · exact hp ▸ h.1
          · exact fun hS => ih'.2 p hp (List.mem_cons_of_mem _ hS)

/-! ## The printed set follows the output -/

section Tracking

variable {ε : Type}

theorem printDeps_tracks (call : String → String → String → List String → Run ε)
    (hcall : ∀ dep s1 s2 S, Tracks S (call dep s1 s2 S)) (n i : Nat) (deps S : List String) :
    Tracks S (printDeps call n i deps S) := by
  induction deps generalizing i S with
  | nil => simp [printDeps_nil, Tracks, Consistent, expanded]
  | cons dep rest ih =>
    by_cases h : (call dep (glyphs n i).1 (glyphs n i).2 S).result = .nil
    · rw [printDeps_cons_nil call n i dep rest S h]
      have h1 := hcall dep (glyphs n i).1 (glyphs n i).2 S
      have h2 := ih (i + 1) (call dep (glyphs n i).1 (glyphs n i).2 S).printed
      refine ⟨?_, ?_⟩
      · simp only [consistent_append]
        refine ⟨h1.1, ?_⟩
        rw [← h1.2]
        exact h2.1
      · simp only [expanded_append, List.reverse_append, List.append_assoc]
        rw [h2.2, h1.2]
    · rw [printDeps_cons_stop call n i dep rest S h]
      exact hcall _ _ _ _

theorem Print_tracks (r : Resolver ε) (keep : FilterFunc) (fuel : Nat) (S : List String)
    (importPath srcDir : String) (withTests : Bool) (p1 p2 : String) :
    Tracks S (Print r keep fuel S importPath srcDir withTests p1 p2) := by
  induction fuel generalizing S importPath srcDir withTests p1 p2 with
  | zero => simp [Print_zero, Tracks, Consistent, expanded]
  | succ fuel ih =>
    cases h : r importPath srcDir with
    | error e => simp [Print_error r keep fuel S importPath srcDir withTests p1 p2 e h, Tracks,
        Consistent, expanded]
    | ok pkg =>
      by_cases hmem : pkg.ImportPath ∈ S
      · simp [Print_seen r keep fuel S importPath srcDir withTests p1 p2 pkg h hmem, Tracks,
          Consistent, expanded, hmem]
      · rw [Print_expand r keep fuel S importPath srcDir withTests p1 p2 pkg h hmem]
        have h2 := printDeps_tracks
          (fun dep s1 s2 printed' =>
            Print r keep fuel printed' dep pkg.Dir false (p2 ++ s1) (p2 ++ s2))
          (fun dep s1 s2 S' => ih S' dep pkg.Dir false (p2 ++ s1) (p2 ++ s2))
          (sortedDeps keep withTests pkg).length 0 (sortedDeps keep withTests pkg)
          (pkg.ImportPath :: S)
        refine ⟨?_, ?_⟩
        · simp only [Consistent, Bool.false_eq_true, if_false, false_iff]
          exact ⟨hmem, h2.1⟩
        · simp only [expanded, List.reverse_cons, List.append_assoc, List.singleton_append]
          exact h2.2

end Tracking

/-! ## Expansion happens once (C1, C2) -/

/-- C1: in a walk started from the empty printed set, at any depth budget, no canonical
path is on two lines without the " (see above)" mark; a line is marked exactly when its path
is on an earlier unmarked line; and a call of `Print` that resolves to a path already in the
printed set does nothing but resolve it and print the one marked line. -/
theorem expanded_at_most_once {ε : Type} (r : Resolver ε) (keep : FilterFunc) (fuel : Nat)
    (importPath srcDir : String) (withTests : Bool) (p1 p2 : String) :
    (expanded (Print r keep fuel [] importPath srcDir withTests p1 p2).events).Nodup ∧
    (∀ pre q path seen post,
      (Print r keep fuel [] importPath srcDir withTests p1 p2).events
          = pre ++ Event.line q path seen :: post →
        (seen = true ↔ path ∈ expanded pre)) ∧
    (∀ (fuel' : Nat) (printed' : List String) (importPath' srcDir' : String) (withTests' : Bool)
        (q1 q2 : String) (pkg : Package),
      r importPath' srcDir' = .ok pkg → pkg.ImportPath ∈ printed' →
        (Print r keep (fuel' + 1) printed' importPath' srcDir' withTests' q1 q2).events
          = [Event.resolve importPath' srcDir', Event.line q1 pkg.ImportPath true]) := by
  have ht := Print_tracks r keep fuel [] importPath srcDir withTests p1 p2
  refine ⟨(consistent_nodup ht.1).1, ?_, ?_⟩
  · intro pre q path seen post hes
    have hc := ht.1
    rw [hes] at hc
    simpa using consistent_line hc
  · intro fuel' printed' importPath' srcDir' withTests' q1 q2 pkg h hmem
    rw [Print_seen r keep fuel' printed' importPath' srcDir' withTests' q1 q2 pkg h hmem]

/-- C2: when the resolver succeeds with a package whose canonical path is already in the
printed set, `Print` writes the single line `p1 + path + " (see above)"`, returns `nil`,
calls the resolver only that once, and leaves the printed set as it was. -/
theorem seen_prints_single_line {ε : Type} (r : Resolver ε) (keep : FilterFunc) (fuel : Nat)
    (printed : List String) (importPath srcDir : String) (withTests : Bool) (p1 p2 : String)
    (pkg : Package) (h : r importPath srcDir = .ok pkg) (hmem : pkg.ImportPath ∈ printed) :
    render (Print r keep (fuel + 1) printed importPath srcDir withTests p1 p2).events
        = [p1 ++ pkg.ImportPath ++ " (see above)"] ∧
    (Print r keep (fuel + 1) printed importPath srcDir withTests p1 p2).result = .nil ∧
    resolves (Print r keep (fuel + 1) printed importPath srcDir withTests p1 p2).events
        = [(importPath, srcDir)] ∧
    (Print r keep (fuel + 1) printed importPath srcDir withTests p1 p2).printed = printed := by
  rw [Print_seen r keep fuel printed importPath srcDir withTests p1 p2 pkg h hmem]
  simp [render, Event.text, resolves]

theorem seen_prints_single_line_witness :
    render (Print demoResolver filterDefault 1 ["lib.io/b", "app.io"] "lib.io/b" "/src/app.io"
        false "`- " "   ").events = ["`- " ++ "lib.io/b" ++ " (see above)"] ∧
    (Print demoResolver filterDefault 1 ["lib.io/b", "app.io"] "lib.io/b" "/src/app.io"
        false "`- " "   ").result = .nil ∧
    resolves (Print demoResolver filterDefault 1 ["lib.io/b", "app.io"] "lib.io/b" "/src/app.io"
        false "`- " "   ").events = [("lib.io/b", "/src/app.io")] ∧
    (Print demoResolver filterDefault 1 ["lib.io/b", "app.io"] "lib.io/b" "/src/app.io"
        false "`- " "   ").printed = ["lib.io/b", "app.io"] :=
  seen_prints_single_line demoResolver filterDefault 0 ["lib.io/b", "app.io"] "lib.io/b"
    "/src/app.io" false "`- " "   " ⟨"lib.io/b", "/src/lib.io/b", [], []⟩ rfl (by decide)

/-! ## The walk reaches the whole graph (C3) -/

section Reachability

variable {ε : Type}

theorem WalkedFrom.mono {r : Resolver ε} {keep : FilterFunc} {c0 c1 : Call}
    {es es' : List Event} {P : String} (h : WalkedFrom r keep c1 es P)
    (hreach : Reach r keep c0 c1) (hes : es <:+: es') : WalkedFrom r keep c0 es' P := by
  obtain ⟨c, pkg, hc, hr, hP, hdeps⟩ := h
  refine ⟨c, pkg, Relation.ReflTransGen.trans hreach hc, hr, hP, ?_⟩
  intro dep hdep
  obtain ⟨pkg', q, seen, h1, h2⟩ := hdeps dep hdep
  exact ⟨pkg', q, seen, h1, h2.trans hes⟩

/-- A call that resolves, given a positive budget, starts with the resolver call and the
line of the resolved package. -/
theorem Print_head (r : Resolver ε) (keep : FilterFunc) (fuel : Nat) (S : List String)
    (importPath srcDir : String) (withTests : Bool) (p1 p2 : String) (pkg : Package)
    (h : r importPath srcDir = .ok pkg) :
    ∃ seen rest, (Print r keep (fuel + 1) S importPath srcDir withTests p1 p2).events
      = Event.resolve importPath srcDir :: Event.line p1 pkg.ImportPath seen :: rest := by
  by_cases hmem : pkg.ImportPath ∈ S
  · exact ⟨true, [], by rw [Print_seen r keep fuel S importPath srcDir withTests p1 p2 pkg h hmem]⟩
  · exact ⟨false, _, by
      rw [Print_expand r keep fuel S importPath srcDir withTests p1 p2 pkg h hmem]⟩

/-- A run that did not return `nil` made no further progress: with budget zero it did
nothing, so a `nil` result needs a positive budget. -/
theorem Print_nil_fuel_pos (r : Resolver ε) (keep : FilterFunc) (fuel : Nat) (S : List String)
    (importPath srcDir : String) (withTests : Bool) (p1 p2 : String)
    (h : (Print r keep fuel S importPath srcDir withTests p1 p2).result = .nil) :
    ∃ k, fuel = k + 1 := by
  cases fuel with
  | zero => simp [Print_zero] at h
  | succ k => exact ⟨k, rfl⟩

/-- A call that returned `nil` resolved its package. -/
theorem Print_nil_resolved (r : Resolver ε) (keep : FilterFunc) (fuel : Nat) (S : List String)
    (importPath srcDir : String) (withTests : Bool) (p1 p2 : String)
    (h : (Print r keep fuel S importPath srcDir withTests p1 p2).result = .nil) :
    ∃ pkg, r importPath srcDir = .ok pkg := by
  obtain ⟨k, rfl⟩ := Print_nil_fuel_pos r keep fuel S importPath srcDir withTests p1 p2 h
  cases hr : r importPath srcDir with
  | error e => simp [Print_error r keep k S importPath srcDir withTests p1 p2 e hr] at h
  | ok pkg => exact ⟨pkg, rfl⟩

theorem printDeps_walked (r : Resolver ε) (keep : FilterFunc)
    (call : String → String → String → List String → Run ε) (dir : String)
    (hcall : ∀ dep s1 s2 S, (call dep s1 s2 S).result = .nil →
      (∃ pkg' q seen rest, r dep dir = .ok pkg' ∧
        (call dep s1 s2 S).events
          = Event.resolve dep dir :: Event.line q pkg'.ImportPath seen :: rest) ∧
      ∀ P ∈ expanded (call dep s1 s2 S).events,
        WalkedFrom r keep (dep, dir, false) (call dep s1 s2 S).events P)
    (n i : Nat) (deps S : List String)
    (h : (printDeps call n i deps S).result = .nil) :
    (∀ dep ∈ deps, ∃ pkg' q seen, r dep dir = .ok pkg' ∧
      [Event.resolve dep dir, Event.line q pkg'.ImportPath seen]
        <:+: (printDeps call n i deps S).events) ∧
    ∀ P ∈ expanded (printDeps call n i deps S).events, ∃ dep ∈ deps,
      WalkedFrom r keep (dep, dir, false) (printDeps call n i deps S).events P := by
  induction deps generalizing i S with
  | nil => simp [printDeps_nil, expanded]
  | cons dep rest ih =>
    by_cases h1 : (call dep (glyphs n i).1 (glyphs n i).2 S).result = .nil
    · rw [printDeps_cons_nil call n i dep rest S h1] at h ⊢
      simp only at h
      obtain ⟨⟨pkg', q, seen, tl, hr, hev⟩, hexp⟩ := hcall dep _ _ S h1
      obtain ⟨ih1, ih2⟩ := ih (i + 1) _ h
      simp only
      refine ⟨?_, ?_⟩
      · intro d hd
        rcases List.mem_cons.1 hd with rfl | hd
        · refine ⟨pkg', q, seen, hr, ?_⟩
          have hpre : [Event.resolve d dir, Event.line q pkg'.ImportPath seen]
              <:+: (call d (glyphs n i).1 (glyphs n i).2 S).events := by
            rw [hev]
            exact (List.prefix_append [_, _] tl).isInfix
          exact hpre.trans (List.prefix_append _ _).isInfix
        · obtain ⟨pkg'', q', seen', hr', hinf⟩ := ih1 d hd
          exact ⟨pkg'', q', seen', hr', hinf.trans (List.suffix_append _ _).isInfix⟩
      · intro P hP
        rw [expanded_append, List.mem_append] at hP
        rcases hP with hP | hP
        · exact ⟨dep, List.mem_cons_self _ _,
            (hexp P hP).mono Relation.ReflTransGen.refl (List.prefix_append _ _).isInfix⟩
        · obtain ⟨d, hd, hw⟩ := ih2 P hP
          exact ⟨d, List.mem_cons_of_mem _ hd,
            hw.mono Relation.ReflTransGen.refl (List.suffix_append _ _).isInfix⟩
    · rw [printDeps_cons_stop call n i dep rest S h1] at h
      exact absurd h h1

/-- Every package expanded by a run that returned `nil` has been walked: all its children
were resolved and printed. -/
theorem Print_walked (r : Resolver ε) (keep : FilterFunc) (fuel : Nat) (S : List String)
    (importPath srcDir : String) (withTests : Bool) (p1 p2 : String)
    (h : (Print r keep fuel S importPath srcDir withTests p1 p2).result = .nil) :
    ∀ P ∈ expanded (Print r keep fuel S importPath srcDir withTests p1 p2).events,
      WalkedFrom r keep (importPath, srcDir, withTests)
        (Print r keep fuel S importPath srcDir withTests p1 p2).events P := by
  induction fuel generalizing S importPath srcDir withTests p1 p2 with
  | zero => simp [Print_zero] at h
  | succ fuel ih =>
    cases hr : r importPath srcDir with
    | error e => simp [Print_error r keep fuel S importPath srcDir withTests p1 p2 e hr] at h
    | ok pkg =>
      by_cases hmem : pkg.ImportPath ∈ S
      · simp [Print_seen r keep fuel S importPath srcDir withTests p1 p2 pkg hr hmem, expanded]
      · rw [Print_expand r keep fuel S importPath srcDir withTests p1 p2 pkg hr hmem] at h ⊢
        simp only at h
        have hloop := printDeps_walked r keep
          (fun dep s1 s2 printed' =>
            Print r keep fuel printed' dep pkg.Dir false (p2 ++ s1) (p2 ++ s2)) pkg.Dir
          (by
            intro dep s1 s2 S' hnil
            refine ⟨?_, ih S' dep pkg.Dir false (p2 ++ s1) (p2 ++ s2) hnil⟩
            obtain ⟨k, hk⟩ := Print_nil_fuel_pos r keep fuel S' dep pkg.Dir false _ _ hnil
            obtain ⟨pkg', hr'⟩ := Print_nil_resolved r keep fuel S' dep pkg.Dir false _ _ hnil
            subst hk
            obtain ⟨seen, rest, hev⟩ :=
              Print_head r keep k S' dep pkg.Dir false (p2 ++ s1) (p2 ++ s2) pkg' hr'
            exact ⟨pkg', _, seen, rest, hr', hev⟩)
          (sortedDeps keep withTests pkg).length 0 (sortedDeps keep withTests pkg)
          (pkg.ImportPath :: S) h
        obtain ⟨hl1, hl2⟩ := hloop
        have hsuf : ∀ es : List Event,
            es <:+: Event.resolve importPath srcDir :: Event.line p1 pkg.ImportPath false :: es :=
          fun es => (List.suffix_append [_, _] es).isInfix
        intro P hP
        simp only [expanded, List.mem_cons] at hP
        rcases hP with rfl | hP
        · refine ⟨(importPath, srcDir, withTests), pkg, Relation.ReflTransGen.refl, hr, rfl, ?_⟩
          intro dep hdep
          obtain ⟨pkg', q, seen, hr', hinf⟩ := hl1 dep hdep
          exact ⟨pkg', q, seen, hr', hinf.trans (hsuf _)⟩
        · obtain ⟨dep, hdep, hw⟩ := hl2 P hP
          exact hw.mono (Relation.ReflTransGen.single ⟨pkg, hr, hdep, rfl, rfl⟩) (hsuf _)

theorem printDeps_result_nil (call : String → String → String → List String → Run ε)
    (n i : Nat) (deps S : List String)
    (hcall : ∀ dep ∈ deps, ∀ s1 s2 S', (call dep s1 s2 S').result = .nil) :
    (printDeps call n i deps S).result = .nil := by
  induction deps generalizing i S with
  | nil => simp [printDeps_nil]
  | cons dep rest ih =>
    have h1 := hcall dep (List.mem_cons_self _ _) (glyphs n i).1 (glyphs n i).2 S
    rw [printDeps_cons_nil call n i dep rest S h1]
    exact ih (i + 1) _ (fun d hd => hcall d (List.mem_cons_of_mem _ hd))

/-- When no chain of imports goes on for ever and every reachable resolution succeeds, each
reachable call returns `nil` once the depth budget is large enough. -/
theorem Print_terminates (r : Resolver ε) (keep : FilterFunc) (root : Call)
    (hwf : WellFounded (fun c' c : Call => Reach r keep root c ∧ Calls r keep c c'))
    (hok : ∀ c, Reach r keep root c → ∃ pkg, r c.1 c.2.1 = .ok pkg) :
    ∀ c, Reach r keep root c → ∃ N, ∀ fuel, N ≤ fuel → ∀ S p1 p2,
      (Print r keep fuel S c.1 c.2.1 c.2.2 p1 p2).result = .nil := by
  intro c
  induction c using hwf.induction with
  | _ c ih =>
    intro hc
    obtain ⟨pkg, hr⟩ := hok c hc
    have hdeps : ∀ l : List String, (∀ dep ∈ l, dep ∈ sortedDeps keep c.2.2 pkg) →
        ∃ N, ∀ dep ∈ l, ∀ fuel, N ≤ fuel → ∀ S p1 p2,
          (Print r keep fuel S dep pkg.Dir false p1 p2).result = .nil := by
      intro l
      induction l with
      | nil => exact fun _ => ⟨0, by simp⟩
      | cons d l ihl =>
        intro hl
        obtain ⟨N1, hN1⟩ := ihl (fun dep hdep => hl dep (List.mem_cons_of_mem _ hdep))
        have hedge : Calls r keep c (d, pkg.Dir, false) :=
          ⟨pkg, hr, hl d (List.mem_cons_self _ _), rfl, rfl⟩
        obtain ⟨N2, hN2⟩ := ih (d, pkg.Dir, false) ⟨hc, hedge⟩
          (Relation.ReflTransGen.tail hc hedge)
        refine ⟨max N1 N2, ?_⟩
        intro dep hdep fuel hfuel S p1 p2
        rcases List.mem_cons.1 hdep with rfl | hdep
        · exact hN2 fuel (le_trans (le_max_right _ _) hfuel) S p1 p2
        · exact hN1 dep hdep fuel (le_trans (le_max_left _ _) hfuel) S p1 p2
    obtain ⟨N, hN⟩ := hdeps (sortedDeps keep c.2.2 pkg) (fun _ h => h)
    refine ⟨N + 1, ?_⟩
    intro fuel hfuel S p1 p2
    obtain ⟨k, rfl⟩ : ∃ k, fuel = k + 1 := ⟨fuel - 1, by omega⟩
    by_cases hmem : pkg.ImportPath ∈ S
    · rw [Print_seen r keep k S c.1 c.2.1 c.2.2 p1 p2 pkg hr hmem]
    · rw [Print_expand r keep k S c.1 c.2.1 c.2.2 p1 p2 pkg hr hmem]
      exact printDeps_result_nil _ _ _ _ _
        (fun dep hdep s1 s2 S' => hN dep hdep k (by omega) S' _ _)

/-- The path of every printed line is in the printed set afterwards. -/
theorem line_mem_printed {S : List String} {run : Run ε} (ht : Tracks S run) {q path : String}
    {seen : Bool} (hl : Event.line q path seen ∈ run.events) : path ∈ run.printed := by
  obtain ⟨pre, post, hes⟩ := List.append_of_mem hl
  have hc := ht.1
  rw [hes] at hc
  rw [ht.2, List.mem_append, List.mem_reverse, hes, expanded_append]
  cases seen with
  | true =>
    rcases (consistent_line hc).1 rfl with h | h
    · exact Or.inr h
    · exact Or.inl (List.mem_append_left _ h)
  | false => exact Or.inl (List.mem_append_right _ (by simp [expanded]))

/-- C3, amended: on a dependency graph without cycles (no import chain from the root goes
on for ever) where every reachable resolution succeeds and a canonical path determines the
package's directory and kept imports, the walk from the empty printed set returns `nil`
once the depth budget is large enough; every package reachable from the root through
kept imports is printed on exactly one unmarked line, nothing else is expanded; every edge
from a reachable package is resolved and printed on a line; and a line is marked
" (see above)" exactly when its path was expanded earlier. -/
theorem walk_visits_reachable (r : Resolver ε) (keep : FilterFunc) (root : Call)
    (p1 p2 : String)
    (hacyclic : WellFounded (fun c' c : Call => Reach r keep root c ∧ Calls r keep c c'))
    (hok : ∀ c, Reach r keep root c → ∃ pkg, r c.1 c.2.1 = .ok pkg)
    (hgraph : ∀ c₁ c₂ pkg₁ pkg₂, Reach r keep root c₁ → Reach r keep root c₂ →
      r c₁.1 c₁.2.1 = .ok pkg₁ → r c₂.1 c₂.2.1 = .ok pkg₂ →
      pkg₁.ImportPath = pkg₂.ImportPath →
        pkg₁.Dir = pkg₂.Dir ∧ sortedDeps keep c₁.2.2 pkg₁ = sortedDeps keep c₂.2.2 pkg₂) :
    ∃ N, ∀ fuel, N ≤ fuel →
      (Print r keep fuel [] root.1 root.2.1 root.2.2 p1 p2).result = .nil ∧
      (∀ c pkg, Reach r keep root c → r c.1 c.2.1 = .ok pkg →
        (expanded (Print r keep fuel [] root.1 root.2.1 root.2.2 p1 p2).events).count
          pkg.ImportPath = 1) ∧
      (∀ P ∈ expanded (Print r keep fuel [] root.1 root.2.1 root.2.2 p1 p2).events,
        ∃ c pkg, Reach r keep root c ∧ r c.1 c.2.1 = .ok pkg ∧ pkg.ImportPath = P) ∧
      (∀ c c' pkg', Reach r keep root c → Calls r keep c c' → r c'.1 c'.2.1 = .ok pkg' →
        ∃ q seen, [Event.resolve c'.1 c'.2.1, Event.line q pkg'.ImportPath seen]
          <:+: (Print r keep fuel [] root.1 root.2.1 root.2.2 p1 p2).events) ∧
      (∀ pre q path seen post,
        (Print r keep fuel [] root.1 root.2.1 root.2.2 p1 p2).events
            = pre ++ Event.line q path seen :: post →
          (seen = true ↔ path ∈ expanded pre)) := by
  obtain ⟨N, hN⟩ := Print_terminates r keep root hacyclic hok root Relation.ReflTransGen.refl
  refine ⟨N, ?_⟩
  intro fuel hfuel
  have hnil := hN fuel hfuel [] p1 p2
  have ht := Print_tracks r keep fuel [] root.1 root.2.1 root.2.2 p1 p2
  have hw := Print_walked r keep fuel [] root.1 root.2.1 root.2.2 p1 p2 hnil
  have hnd := consistent_nodup ht.1
  -- an edge out of an expanded package is walked
  have hstep : ∀ c c' pkgc pkg', Reach r keep root c → r c.1 c.2.1 = .ok pkgc →
      pkgc.ImportPath ∈ expanded (Print r keep fuel [] root.1 root.2.1 root.2.2 p1 p2).events →
      Calls r keep c c' → r c'.1 c'.2.1 = .ok pkg' →
      ∃ q seen, [Event.resolve c'.1 c'.2.1, Event.line q pkg'.ImportPath seen]
        <:+: (Print r keep fuel [] root.1 root.2.1 root.2.2 p1 p2).events := by
    intro c c' pkgc pkg' hc hrc hin hedge hr'
    obtain ⟨pkgc', hrc', hdep, hdir, _⟩ := hedge
    have hpk : pkgc' = pkgc := by
      rw [hrc] at hrc'
      exact (Except.ok.inj hrc').symm
    subst hpk
    obtain ⟨c'', pkg'', hreach'', hr'', hP, hdeps⟩ := hw _ hin
    obtain ⟨hDir, hsd⟩ := hgraph c c'' pkgc' pkg'' hc hreach'' hrc hr'' hP.symm
    rw [hsd] at hdep
    obtain ⟨pkg1, q, seen, hr1, hinf⟩ := hdeps c'.1 hdep
    rw [← hDir, ← hdir, hr'] at hr1
    have hpk' : pkg' = pkg1 := Except.ok.inj hr1
    subst hpk'
    rw [← hDir, ← hdir] at hinf
    exact ⟨q, seen, hinf⟩
  -- hence every reachable package is expanded
  have hall : ∀ c, Reach r keep root c → ∀ pkg, r c.1 c.2.1 = .ok pkg →
      pkg.ImportPath ∈ expanded (Print r keep fuel [] root.1 root.2.1 root.2.2 p1 p2).events := by
    intro c hc
    induction hc with
    | refl =>
      intro pkg hr
      obtain ⟨k, hk⟩ := Print_nil_fuel_pos r keep fuel [] root.1 root.2.1 root.2.2 p1 p2 hnil
      subst hk
      rw [Print_expand r keep k [] root.1 root.2.1 root.2.2 p1 p2 pkg hr (by simp)]
      simp [expanded]
    | tail hab hbc ih =>
      rename_i c c'
      intro pkg' hr'
      obtain ⟨pkgc, hrc⟩ := hok c hab
      obtain ⟨q, seen, hinf⟩ := hstep c c' pkgc pkg' hab hrc (ih pkgc hrc) hbc hr'
      have hmem : Event.line q pkg'.ImportPath seen
          ∈ (Print r keep fuel [] root.1 root.2.1 root.2.2 p1 p2).events :=
        hinf.subset (by simp)
      have := line_mem_printed ht hmem
      rw [ht.2] at this
      simpa using this
  refine ⟨hnil, ?_, ?_, ?_, ?_⟩
  · intro c pkg hc hr
    exact List.count_eq_one_of_mem hnd.1 (hall c hc pkg hr)
  · intro P hP
    obtain ⟨c, pkg, hc, hr, hPeq, _⟩ := hw P hP
    exact ⟨c, pkg, hc, hr, hPeq⟩
  · intro c c' pkg' hc hedge hr'
    obtain ⟨pkgc, hrc⟩ := hok c hc
    exact hstep c c' pkgc pkg' hc hrc (hall c hc pkgc hrc) hedge hr'
  · intro pre q path seen post hes
    have hc := ht.1
    rw [hes] at hc
    simpa using consistent_line hc

theorem sortedDeps_noTests (keep : FilterFunc) (withTests : Bool) (pkg : Package)
    (h : pkg.TestImports = []) : sortedDeps keep withTests pkg = sortedDeps keep false pkg := by
  cases withTests with
  | false => rfl
  | true => simp [sortedDeps, depsUnique, h, addKept]

theorem demoResolver_cases {importPath srcDir : String} {pkg : Package}
    (h : demoResolver importPath srcDir = .ok pkg) :
    (importPath = "app.io" ∧
        pkg = ⟨"app.io", "/src/app.io", ["lib.io/a", "lib.io/b"], []⟩) ∨
      (importPath = "lib.io/a" ∧ pkg = ⟨"lib.io/a", "/src/lib.io/a", ["lib.io/b"], []⟩) ∨
      (importPath = "lib.io/b" ∧ pkg = ⟨"lib.io/b", "/src/lib.io/b", [], []⟩) := by
  unfold demoResolver at h
  split_ifs at h with h1 h2 h3
  · exact Or.inl ⟨h1, (Except.ok.inj h).symm⟩
  · exact Or.inr (Or.inl ⟨h2, (Except.ok.inj h).symm⟩)
  · exact Or.inr (Or.inr ⟨h3, (Except.ok.inj h).symm⟩)

theorem demoResolver_calls {c c' : Call} (h : Calls demoResolver filterDefault c c') :
    (c'.1 = "lib.io/a" ∨ c'.1 = "lib.io/b") ∧ demoRank c'.1 < demoRank c.1 := by
  obtain ⟨pkg, hr, hdep, _, _⟩ := h
  rw [mem_sortedDeps] at hdep
  rcases demoResolver_cases hr with ⟨h1, rfl⟩ | ⟨h1, rfl⟩ | ⟨h1, rfl⟩
  · have : c'.1 = "lib.io/a" ∨ c'.1 = "lib.io/b" := by simpa using hdep.2
    refine ⟨this, ?_⟩
    rcases this with h2 | h2 <;> rw [h1, h2] <;> decide
  · have : c'.1 = "lib.io/b" := by simpa using hdep.2
    refine ⟨Or.inr this, ?_⟩
    rw [h1, this]
    decide
  · simp at hdep

theorem demoResolver_acyclic :
    WellFounded (fun c' c : Call =>
      Reach demoResolver filterDefault demoRoot c ∧ Calls demoResolver filterDefault c c') :=
  Subrelation.wf (fun {_ _} h => (demoResolver_calls h.2).2)
    (InvImage.wf (fun c : Call => demoRank c.1) Nat.lt_wfRel.wf)

theorem demoResolver_ok (c : Call) (h : Reach demoResolver filterDefault demoRoot c) :
    ∃ pkg, demoResolver c.1 c.2.1 = .ok pkg := by
  have hc : c.1 = "app.io" ∨ c.1 = "lib.io/a" ∨ c.1 = "lib.io/b" := by
    induction h with
    | refl => exact Or.inl rfl
    | tail _ hbc _ => exact Or.inr (demoResolver_calls hbc).1
  rcases hc with h | h | h <;> simp [demoResolver, h]

theorem demoResolver_graph (c₁ c₂ : Call) (pkg₁ pkg₂ : Package)
    (h₁ : demoResolver c₁.1 c₁.2.1 = .ok pkg₁) (h₂ : demoResolver c₂.1 c₂.2.1 = .ok pkg₂)
    (hP : pkg₁.ImportPath = pkg₂.ImportPath) :
    pkg₁.Dir = pkg₂.Dir ∧
      sortedDeps filterDefault c₁.2.2 pkg₁ = sortedDeps filterDefault c₂.2.2 pkg₂ := by
  have e₁ : pkg₁.TestImports = [] := by
    rcases demoResolver_cases h₁ with ⟨_, rfl⟩ | ⟨_, rfl⟩ | ⟨_, rfl⟩ <;> rfl
  have e : pkg₁ = pkg₂ := by
    rcases demoResolver_cases h₁ with ⟨_, rfl⟩ | ⟨_, rfl⟩ | ⟨_, rfl⟩ <;>
      rcases demoResolver_cases h₂ with ⟨_, rfl⟩ | ⟨_, rfl⟩ | ⟨_, rfl⟩ <;>
      first | rfl | exact absurd hP (by decide)
  subst e
  exact ⟨rfl, by rw [sortedDeps_noTests _ c₁.2.2 _ e₁, sortedDeps_noTests _ c₂.2.2 _ e₁]⟩

theorem walk_visits_reachable_witness :
    ∃ N, ∀ fuel, N ≤ fuel →
      (Print demoResolver filterDefault fuel [] demoRoot.1 demoRoot.2.1 demoRoot.2.2 "" "").result
        = .nil ∧
      (∀ c pkg, Reach demoResolver filterDefault demoRoot c → demoResolver c.1 c.2.1 = .ok pkg →
        (expanded (Print demoResolver filterDefault fuel [] demoRoot.1 demoRoot.2.1
          demoRoot.2.2 "" "").events).count pkg.ImportPath = 1) ∧
      (∀ P ∈ expanded (Print demoResolver filterDefault fuel [] demoRoot.1 demoRoot.2.1
          demoRoot.2.2 "" "").events,
        ∃ c pkg, Reach demoResolver filterDefault demoRoot c ∧
          demoResolver c.1 c.2.1 = .ok pkg ∧ pkg.ImportPath = P) ∧
      (∀ c c' pkg', Reach demoResolver filterDefault demoRoot c →
        Calls demoResolver filterDefault c c' → demoResolver c'.1 c'.2.1 = .ok pkg' →
        ∃ q seen, [Event.resolve c'.1 c'.2.1, Event.line q pkg'.ImportPath seen]
          <:+: (Print demoResolver filterDefault fuel [] demoRoot.1 demoRoot.2.1
            demoRoot.2.2 "" "").events) ∧
      (∀ pre q path seen post,
        (Print demoResolver filterDefault fuel [] demoRoot.1 demoRoot.2.1
            demoRoot.2.2 "" "").events = pre ++ Event.line q path seen :: post →
          (seen = true ↔ path ∈ expanded pre)) :=
  walk_visits_reachable demoResolver filterDefault demoRoot "" "" demoResolver_acyclic
    demoResolver_ok (fun c₁ c₂ pkg₁ pkg₂ _ _ h₁ h₂ hP => demoResolver_graph c₁ c₂ pkg₁ pkg₂ h₁ h₂ hP)

end Reachability

/-! ## The children of an expanded package (C4) -/

section Children

variable {ε : Type}

/-- A strictly increasing list is determined by its members. -/
theorem sorted_lt_unique {l l' : List String} (h : l.Sorted (· < ·)) (h' : l'.Sorted (· < ·))
    (hmem : ∀ p, p ∈ l ↔ p ∈ l') : l = l' :=
  List.eq_of_perm_of_sorted ((List.perm_ext_iff_of_nodup h.nodup h'.nodup).2 hmem) h h'

/-- When the loop returns `nil`, it has resolved every element of `deps` against `dir`, in
the order of `deps`. -/
theorem printDeps_resolves_sublist (call : String → String → String → List String → Run ε)
    (dir : String)
    (hcall : ∀ dep s1 s2 S, (call dep s1 s2 S).result = .nil →
      ∃ rest, resolves (call dep s1 s2 S).events = (dep, dir) :: rest)
    (n i : Nat) (deps S : List String) (h : (printDeps call n i deps S).result = .nil) :
    (deps.map (fun dep => (dep, dir))).Sublist (resolves (printDeps call n i deps S).events) := by
  induction deps generalizing i S with
  | nil => simp
  | cons dep rest ih =>
    by_cases h1 : (call dep (glyphs n i).1 (glyphs n i).2 S).result = .nil
    · rw [printDeps_cons_nil call n i dep rest S h1] at h ⊢
      simp only at h ⊢
      obtain ⟨tl, htl⟩ := hcall dep _ _ S h1
      rw [resolves_append, htl, List.map_cons, List.cons_append]
      exact List.Sublist.cons₂ _ ((ih (i + 1) _ h).trans (List.sublist_append_right _ _))
    · rw [printDeps_cons_stop call n i dep rest S h1] at h
      exact absurd h h1

/-- A call that returned `nil` began by resolving its own arguments. -/
theorem Print_nil_resolves_head (r : Resolver ε) (keep : FilterFunc) (fuel : Nat)
    (S : List String) (importPath srcDir : String) (withTests : Bool) (p1 p2 : String)
    (h : (Print r keep fuel S importPath srcDir withTests p1 p2).result = .nil) :
    ∃ rest, resolves (Print r keep fuel S importPath srcDir withTests p1 p2).events
      = (importPath, srcDir) :: rest := by
  obtain ⟨k, rfl⟩ := Print_nil_fuel_pos r keep fuel S importPath srcDir withTests p1 p2 h
  obtain ⟨pkg, hr⟩ := Print_nil_resolved r keep (k + 1) S importPath srcDir withTests p1 p2 h
  obtain ⟨seen, rest, hev⟩ := Print_head r keep k S importPath srcDir withTests p1 p2 pkg hr
  exact ⟨resolves rest, by rw [hev]; simp [resolves]⟩

/-- An expanded call that returns `nil` has resolved itself and then each of its children
against the package's directory, in the order of the sorted list. -/
theorem children_sublist_of_nil (r : Resolver ε) (keep : FilterFunc) (fuel : Nat)
    (printed : List String) (importPath srcDir : String) (withTests : Bool) (p1 p2 : String)
    (pkg : Package) (h : r importPath srcDir = .ok pkg) (hnew : pkg.ImportPath ∉ printed)
    (hnil : (Print r keep (fuel + 1) printed importPath srcDir withTests p1 p2).result = .nil) :
    ((importPath, srcDir) :: (sortedDeps keep withTests pkg).map (fun dep => (dep, pkg.Dir))).Sublist
      (resolves (Print r keep (fuel + 1) printed importPath srcDir withTests p1 p2).events) := by
  rw [Print_expand r keep fuel printed importPath srcDir withTests p1 p2 pkg h hnew] at hnil ⊢
  simp only at hnil
  simp only [resolves]
  exact List.Sublist.cons₂ _ (printDeps_resolves_sublist _ pkg.Dir
    (fun dep s1 s2 S hn => Print_nil_resolves_head r keep fuel S dep pkg.Dir false _ _ hn)
    _ _ _ _ hnil)

/-- C4: for a package resolved by `Print` and not yet printed, the list of children the
loop recurses into is strictly increasing (so duplicate-free), holds exactly the paths `p`
with `keep p` that are in `pkg.Imports`, or in `pkg.TestImports` when `withTests` is set,
and is the only strictly increasing list with these members; when the call returns `nil`
each of them has been resolved against `pkg.Dir`, in this order. -/
theorem children_are_sorted_kept_imports (r : Resolver ε) (keep : FilterFunc) (fuel : Nat)
    (printed : List String) (importPath srcDir : String) (withTests : Bool) (p1 p2 : String)
    (pkg : Package) (h : r importPath srcDir = .ok pkg) (hnew : pkg.ImportPath ∉ printed) :
    (sortedDeps keep withTests pkg).Sorted (· < ·) ∧
    (∀ p, p ∈ sortedDeps keep withTests pkg ↔
      keep p = true ∧ (p ∈ pkg.Imports ∨ (withTests = true ∧ p ∈ pkg.TestImports))) ∧
    (∀ l : List String, l.Sorted (· < ·) →
      (∀ p, p ∈ l ↔
        keep p = true ∧ (p ∈ pkg.Imports ∨ (withTests = true ∧ p ∈ pkg.TestImports))) →
      l = sortedDeps keep withTests pkg) ∧
    (∀ p ∈ sortedDeps keep withTests pkg, (sortedDeps keep withTests pkg).count p = 1) ∧
    (Print r keep (fuel + 1) printed importPath srcDir withTests p1 p2).events =
      Event.resolve importPath srcDir :: Event.line p1 pkg.ImportPath false ::
        (printDeps (fun dep s1 s2 printed' =>
            Print r keep fuel printed' dep pkg.Dir false (p2 ++ s1) (p2 ++ s2))
          (sortedDeps keep withTests pkg).length 0 (sortedDeps keep withTests pkg)
          (pkg.ImportPath :: printed)).events ∧
    ((Print r keep (fuel + 1) printed importPath srcDir withTests p1 p2).result = .nil →
      ((importPath, srcDir) :: (sortedDeps keep withTests pkg).map (fun dep => (dep, pkg.Dir))).Sublist
        (resolves (Print r keep (fuel + 1) printed importPath srcDir withTests p1 p2).events)) := by
  refine ⟨sortedDeps_sorted keep withTests pkg, mem_sortedDeps keep withTests pkg, ?_, ?_, ?_, ?_⟩
  · intro l hl hmem
    exact sorted_lt_unique hl (sortedDeps_sorted keep withTests pkg)
      (fun p => (hmem p).trans (mem_sortedDeps keep withTests pkg p).symm)
  · intro p hp
    exact List.count_eq_one_of_mem (sortedDeps_nodup keep withTests pkg) hp
  · rw [Print_expand r keep fuel printed importPath srcDir withTests p1 p2 pkg h hnew]
  · exact children_sublist_of_nil r keep fuel printed importPath srcDir withTests p1 p2 pkg h hnew

theorem children_are_sorted_kept_imports_witness :
    (sortedDeps filterStandard true ⟨"t.io/p", "/d", ["b.io/y", "C", "a.io/x", "b.io/y"],
      ["a.io/x", "t.io/q"]⟩).Sorted (· < ·) ∧
    sortedDeps filterStandard true ⟨"t.io/p", "/d", ["b.io/y", "C", "a.io/x", "b.io/y"],
      ["a.io/x", "t.io/q"]⟩ = ["a.io/x", "b.io/y", "t.io/q"] :=
  ⟨(children_are_sorted_kept_imports
      (fun _ _ => (.ok ⟨"t.io/p", "/d", ["b.io/y", "C", "a.io/x", "b.io/y"],
        ["a.io/x", "t.io/q"]⟩ : Except String Package))
      filterStandard 0 [] "t.io/p" "/" true "" "" _ rfl (by decide)).1, by decide⟩

end Children

/-! ## The output of the loop, child by child -/

section Segments

variable {ε : Type}

/-- The events of the loop are the events of its recursive calls, one after the other: the
call for `deps[j]` is made with the glyphs of index `i + j`.  A call is made for every
element of `deps` when the loop returns `nil`. -/
theorem printDeps_segments (call : String → String → String → List String → Run ε)
    (n i : Nat) (deps S : List String) :
    ∃ segs : List (List Event),
      (printDeps call n i deps S).events = segs.flatten ∧
      segs.length ≤ deps.length ∧
      ((printDeps call n i deps S).result = .nil → segs.length = deps.length) ∧
      ∀ j dep seg, deps[j]? = some dep → segs[j]? = some seg →
        ∃ S', seg = (call dep (glyphs n (i + j)).1 (glyphs n (i + j)).2 S').events := by
  induction deps generalizing i S with
  | nil => exact ⟨[], by simp [printDeps_nil]⟩
  | cons dep rest ih =>
    by_cases h1 : (call dep (glyphs n i).1 (glyphs n i).2 S).result = .nil
    · obtain ⟨segs, hj, hlen, hnil, hseg⟩ :=
        ih (i + 1) (call dep (glyphs n i).1 (glyphs n i).2 S).printed
      refine ⟨(call dep (glyphs n i).1 (glyphs n i).2 S).events :: segs, ?_, ?_, ?_, ?_⟩
      · rw [printDeps_cons_nil call n i dep rest S h1]
        simp [hj]
      · simpa using hlen
      · rw [printDeps_cons_nil call n i dep rest S h1]
        intro h
        simpa using hnil h
      · intro j d seg hd hs
        cases j with
        | zero =>
          simp only [List.getElem?_cons_zero, Option.some.injEq] at hd hs
          subst hd
          subst hs
          exact ⟨S, rfl⟩
        | succ j =>
          simp only [List.getElem?_cons_succ] at hd hs
          obtain ⟨S', hS'⟩ := hseg j d seg hd hs
          exact ⟨S', by rw [hS', show i + 1 + j = i + (j + 1) by omega]⟩
    · refine ⟨[(call dep (glyphs n i).1 (glyphs n i).2 S).events], ?_, ?_, ?_, ?_⟩
      · rw [printDeps_cons_stop call n i dep rest S h1]
        simp
      · simp
      · rw [printDeps_cons_stop call n i dep rest S h1]
        intro h
        exact absurd h h1
      · intro j d seg hd hs
        cases j with
        | zero =>
          simp only [List.getElem?_cons_zero, Option.some.injEq] at hd hs
          subst hd
          subst hs
          exact ⟨S, rfl⟩
        | succ j => simp at hs

/-- The first line of a call has branch prefix `p1`; every later line has a prefix that
extends the continuation prefix `p2`. -/
theorem Print_prefixes (r : Resolver ε) (keep : FilterFunc) (fuel : Nat) (S : List String)
    (importPath srcDir : String) (withTests : Bool) (p1 p2 : String) :
    prefixes (Print r keep fuel S importPath srcDir withTests p1 p2).events = [] ∨
    ∃ rest, prefixes (Print r keep fuel S importPath srcDir withTests p1 p2).events = p1 :: rest ∧
      ∀ q ∈ rest, ∃ t, q = p2 ++ t := by
  induction fuel generalizing S importPath srcDir withTests p1 p2 with
  | zero => exact Or.inl (by simp [Print_zero, prefixes])
  | succ fuel ih =>
    cases hr : r importPath srcDir with
    | error e =>
      exact Or.inl (by
        simp [Print_error r keep fuel S importPath srcDir withTests p1 p2 e hr, prefixes])
    | ok pkg =>
      by_cases hmem : pkg.ImportPath ∈ S
      · exact Or.inr ⟨[], by
          simp [Print_seen r keep fuel S importPath srcDir withTests p1 p2 pkg hr hmem, prefixes]⟩
      · rw [Print_expand r keep fuel S importPath srcDir withTests p1 p2 pkg hr hmem]
        simp only [prefixes]
        refine Or.inr ⟨_, rfl, ?_⟩
        obtain ⟨segs, hj, _, _, hseg⟩ := printDeps_segments
          (fun dep s1 s2 printed' =>
            Print r keep fuel printed' dep pkg.Dir false (p2 ++ s1) (p2 ++ s2))
          (sortedDeps keep withTests pkg).length 0 (sortedDeps keep withTests pkg)
          (pkg.ImportPath :: S)
        rw [hj]
        have hall : ∀ (l : List (List Event)), (∀ seg ∈ l, ∀ q ∈ prefixes seg, ∃ t, q = p2 ++ t) →
            ∀ q ∈ prefixes l.flatten, ∃ t, q = p2 ++ t := by
          intro l
          induction l with
          | nil => simp [prefixes]
          | cons a l ihl =>
            intro hl q hq
            rw [List.flatten_cons, prefixes_append, List.mem_append] at hq
            rcases hq with hq | hq
            · exact hl a (List.mem_cons_self _ _) q hq
            · exact ihl (fun seg hs => hl seg (List.mem_cons_of_mem _ hs)) q hq
        apply hall
        intro seg hsegmem q hq
        obtain ⟨j, hjlt, hjeq⟩ := List.getElem_of_mem hsegmem
        have hjlt' : j < (sortedDeps keep withTests pkg).length := by omega
        obtain ⟨S', hS'⟩ := hseg j ((sortedDeps keep withTests pkg)[j]) seg
          (List.getElem?_eq_getElem hjlt') (by rw [List.getElem?_eq_getElem hjlt, hjeq])
        rw [hS'] at hq
        rcases ih S' ((sortedDeps keep withTests pkg)[j]) pkg.Dir false
          (p2 ++ (glyphs (sortedDeps keep withTests pkg).length (0 + j)).1)
          (p2 ++ (glyphs (sortedDeps keep withTests pkg).length (0 + j)).2) with h0 | ⟨rest, h1, h2⟩
        · rw [h0] at hq
          simp at hq
        · rw [h1] at hq
          rcases List.mem_cons.1 hq with rfl | hq
          · exact ⟨_, rfl⟩
          · obtain ⟨t, rfl⟩ := h2 q hq
            exact ⟨_, String.append_assoc _ _ _⟩

end Segments

/-! ## The order of the children (C5) -/

section Order

variable {ε : Type}

theorem strLt_iff (a b : String) : a < b ↔ lexLt a.toList b.toList = true := by
  rw [lexLt_iff, String.lt_iff_toList_lt]

theorem filterMap_sublist_self {f : String → Option String} (l : List String)
    (h : ∀ x ∈ l, ∀ y, f x = some y → y = x) : (l.filterMap f).Sublist l := by
  induction l with
  | nil => simp
  | cons x xs ih =>
    have ih' := ih (fun a ha => h a (List.mem_cons_of_mem _ ha))
    cases hx : f x with
    | none =>
      rw [List.filterMap_cons_none hx]
      exact ih'.cons x
    | some y =>
      rw [List.filterMap_cons_some hx, h x (List.mem_cons_self _ _) y hx]
      exact ih'.cons₂ x

/-- C5, as stated, fails: walking `z.io/app` with the default filter prints its four
children in the order `z.io/app/y`, `z.io/app/vendor/a.io/x`, `b.io/y`, `z.io/app/y`
of their canonical paths, which is neither increasing nor free of repetition. -/
theorem children_not_in_canonical_order :
    (Print vendorResolver filterDefault 2 [] "z.io/app" "/" false "" "").events =
      [Event.resolve "z.io/app" "/", Event.line "" "z.io/app" false,
        Event.resolve "./y" "/z.io/app", Event.line "|- " "z.io/app/y" false,
        Event.resolve "a.io/x" "/z.io/app", Event.line "|- " "z.io/app/vendor/a.io/x" false,
        Event.resolve "b.io/y" "/z.io/app", Event.line "|- " "b.io/y" false,
        Event.resolve "z.io/app/y" "/z.io/app", Event.line "`- " "z.io/app/y" true] ∧
    childCanonicals vendorResolver filterDefault false vendorApp =
      ["z.io/app/y", "z.io/app/vendor/a.io/x", "b.io/y", "z.io/app/y"] ∧
    ¬ ChildrenInCanonicalOrder vendorResolver filterDefault false vendorApp ∧
    ¬ (childCanonicals vendorResolver filterDefault false vendorApp).Nodup := by
  have hc : childCanonicals vendorResolver filterDefault false vendorApp =
      ["z.io/app/y", "z.io/app/vendor/a.io/x", "b.io/y", "z.io/app/y"] := by decide
  refine ⟨by decide, hc, ?_, ?_⟩
  · unfold ChildrenInCanonicalOrder
    rw [hc]
    intro h
    have h1 : ("z.io/app/y" : String) < "z.io/app/vendor/a.io/x" :=
      List.rel_of_sorted_cons h _ (List.mem_cons_self _ _)
    rw [strLt_iff] at h1
    exact absurd h1 (by decide)
  · rw [hc]
    decide

/-- C5, amended: the children of an expanded package are walked, and their lines printed,
in strictly increasing order of the import paths as the package lists them; the line of a
child shows the canonical path its import path resolves to against the package's
directory.  When each child resolves to a canonical path equal to its import path, the
lines are in strictly increasing order of canonical path as well. -/
theorem children_in_requested_order (r : Resolver ε) (keep : FilterFunc) (fuel : Nat)
    (printed : List String) (importPath srcDir : String) (withTests : Bool) (p1 p2 : String)
    (pkg : Package) (h : r importPath srcDir = .ok pkg) (hnew : pkg.ImportPath ∉ printed) :
    (sortedDeps keep withTests pkg).Sorted (· < ·) ∧
    (∃ segs : List (List Event),
      (Print r keep (fuel + 2) printed importPath srcDir withTests p1 p2).events =
        Event.resolve importPath srcDir :: Event.line p1 pkg.ImportPath false :: segs.flatten ∧
      segs.length ≤ (sortedDeps keep withTests pkg).length ∧
      ((Print r keep (fuel + 2) printed importPath srcDir withTests p1 p2).result = .nil →
        segs.length = (sortedDeps keep withTests pkg).length) ∧
      ∀ j dep seg child, (sortedDeps keep withTests pkg)[j]? = some dep → segs[j]? = some seg →
        r dep pkg.Dir = .ok child →
        ∃ seen rest, seg = Event.resolve dep pkg.Dir ::
          Event.line (p2 ++ (glyphs (sortedDeps keep withTests pkg).length j).1)
            child.ImportPath seen :: rest) ∧
    ((∀ dep ∈ sortedDeps keep withTests pkg, ∀ child, r dep pkg.Dir = .ok child →
        child.ImportPath = dep) →
      ChildrenInCanonicalOrder r keep withTests pkg) := by
  refine ⟨sortedDeps_sorted keep withTests pkg, ?_, ?_⟩
  · obtain ⟨segs, hj, hlen, hnil, hseg⟩ := printDeps_segments
      (fun dep s1 s2 printed' =>
        Print r keep (fuel + 1) printed' dep pkg.Dir false (p2 ++ s1) (p2 ++ s2))
      (sortedDeps keep withTests pkg).length 0 (sortedDeps keep withTests pkg)
      (pkg.ImportPath :: printed)
    rw [Print_expand r keep (fuel + 1) printed importPath srcDir withTests p1 p2 pkg h hnew]
    refine ⟨segs, by rw [hj], hlen, hnil, ?_⟩
    intro j dep seg child hd hs hr
    obtain ⟨S', hS'⟩ := hseg j dep seg hd hs
    obtain ⟨seen, rest, hev⟩ := Print_head r keep fuel S' dep pkg.Dir false
      (p2 ++ (glyphs (sortedDeps keep withTests pkg).length (0 + j)).1)
      (p2 ++ (glyphs (sortedDeps keep withTests pkg).length (0 + j)).2) child hr
    rw [Nat.zero_add] at hev hS'
    exact ⟨seen, rest, hS'.trans hev⟩
  · intro hcanon
    unfold ChildrenInCanonicalOrder childCanonicals
    refine (sortedDeps_sorted keep withTests pkg).sublist (filterMap_sublist_self _ ?_)
    intro dep hdep y hy
    cases hr : r dep pkg.Dir with
    | error e => simp [hr] at hy
    | ok child =>
      simp only [hr, Option.some.injEq] at hy
      rw [← hy]
      exact hcanon dep hdep child hr

theorem children_in_requested_order_witness :
    ChildrenInCanonicalOrder demoResolver filterDefault false
      ⟨"app.io", "/src/app.io", ["lib.io/a", "lib.io/b"], []⟩ :=
  (children_in_requested_order demoResolver filterDefault 0 [] "app.io" "/" false "" ""
    ⟨"app.io", "/src/app.io", ["lib.io/a", "lib.io/b"], []⟩ rfl (by decide)).2.2
    (fun _ _ child hr => by
      rcases demoResolver_cases hr with ⟨h1, rfl⟩ | ⟨h1, rfl⟩ | ⟨h1, rfl⟩ <;> exact h1.symm)

end Order

/-! ## The scenario of the specification (C6) -/

section Scenario

variable {ε : Type}

theorem sortedDeps_false (keep : FilterFunc) (pkg : Package) :
    sortedDeps keep false pkg = sortStrings (addKept keep [] pkg.Imports) := by
  simp [sortedDeps, depsUnique]

/-- C6, as stated, fails: with the filter of default mode the walk of `app` prints the
single line "app", because `libA` and `libB` have no "." in their first segment and are
filtered out as standard packages. -/
theorem scenario_default_prints_root_only :
    render (Print scenarioResolver filterDefault 3 [] "app" "/" false "" "").events = ["app"] ∧
    render (Print scenarioResolver filterDefault 3 [] "app" "/" false "" "").events
      ≠ ["app", "|- libA", "|  `- libB", "`- libB (see above)"] := by
  decide

/-- C6, amended: for a resolver in which `app` imports `libA` and `libB`, `libA` imports
`libB` and `libB` imports nothing, the walk of `app` from the empty printed set with empty
prefixes and the test flag off prints exactly "app", "|- libA", "|  `- libB",
"`- libB (see above)" under the filter of `--standard`, and exactly "app" under the
filter of default mode; both walks return `nil`. -/
theorem scenario_output (r : Resolver ε) (srcDir : String) (app libA : Package)
    (happ : r "app" srcDir = .ok app) (hA : r "libA" app.Dir = .ok libA)
    (hB : ∀ dir, ∃ libB, r "libB" dir = .ok libB ∧ libB.ImportPath = "libB" ∧ libB.Imports = [])
    (happ1 : app.ImportPath = "app") (happ2 : app.Imports = ["libA", "libB"])
    (hA1 : libA.ImportPath = "libA") (hA2 : libA.Imports = ["libB"]) (fuel : Nat) :
    render (Print r filterStandard (fuel + 3) [] "app" srcDir false "" "").events
      = ["app", "|- libA", "|  `- libB", "`- libB (see above)"] ∧
    (Print r filterStandard (fuel + 3) [] "app" srcDir false "" "").result = .nil ∧
    render (Print r filterDefault (fuel + 1) [] "app" srcDir false "" "").events = ["app"] ∧
    (Print r filterDefault (fuel + 1) [] "app" srcDir false "" "").result = .nil := by
  obtain ⟨libB, hB1, hB2, hB3⟩ := hB libA.Dir
  obtain ⟨libB', hB1', hB2', _⟩ := hB app.Dir
  have d1 : sortedDeps filterStandard false app = ["libA", "libB"] := by
    rw [sortedDeps_false, happ2]; decide
  have d2 : sortedDeps filterStandard false libA = ["libB"] := by
    rw [sortedDeps_false, hA2]; decide
  have d3 : sortedDeps filterStandard false libB = [] := by
    rw [sortedDeps_false, hB3]; decide
  have d4 : sortedDeps filterDefault false app = [] := by
    rw [sortedDeps_false, happ2]; decide
  have g1 : glyphs 2 0 = ("|- ", "|  ") := by decide
  have g2 : glyphs 2 1 = ("`- ", "   ") := by decide
  have g3 : glyphs 1 0 = ("`- ", "   ") := by decide
  refine ⟨?_, ?_, ?_, ?_⟩
  · simp [Print, printDeps, happ, hA, hB1, hB1', happ1, hA1, hB2, hB2', d1, d2, d3, g1, g2, g3,
      render, Event.text]
  · simp [Print, printDeps, happ, hA, hB1, hB1', happ1, hA1, hB2, hB2', d1, d2, d3, g1, g2, g3]
  · simp [Print, printDeps, happ, happ1, d4, render, Event.text]
  · simp [Print, printDeps, happ, happ1, d4]

theorem scenario_output_witness :
    render (Print scenarioResolver filterStandard 3 [] "app" "/" false "" "").events
      = ["app", "|- libA", "|  `- libB", "`- libB (see above)"] ∧
    (Print scenarioResolver filterStandard 3 [] "app" "/" false "" "").result = .nil ∧
    render (Print scenarioResolver filterDefault 1 [] "app" "/" false "" "").events = ["app"] ∧
    (Print scenarioResolver filterDefault 1 [] "app" "/" false "" "").result = .nil :=
  scenario_output scenarioResolver "/" ⟨"app", "/src/app", ["libA", "libB"], []⟩
    ⟨"libA", "/src/libA", ["libB"], []⟩ rfl rfl
    (fun _ => ⟨⟨"libB", "/src/libB", [], []⟩, rfl, rfl, rfl⟩) rfl rfl rfl rfl 0

end Scenario

/-! ## Test imports count at the root only (C7) -/

section Tests

variable {ε : Type}

/-- Below the root (`withTests = false`) a walk does not depend on any `TestImports`. -/
theorem Print_false_congr (r₁ r₂ : Resolver ε) (keep : FilterFunc)
    (hrest : ∀ a b, withoutTestImports (r₁ a b) = withoutTestImports (r₂ a b)) (fuel : Nat)
    (S : List String) (importPath srcDir p1 p2 : String) :
    Print r₁ keep fuel S importPath srcDir false p1 p2
      = Print r₂ keep fuel S importPath srcDir false p1 p2 := by
  induction fuel generalizing S importPath srcDir p1 p2 with
  | zero => rfl
  | succ fuel ih =>
    have h := hrest importPath srcDir
    cases h₁ : r₁ importPath srcDir with
    | error e =>
      cases h₂ : r₂ importPath srcDir with
      | error e' =>
        rw [h₁, h₂] at h
        simp only [withoutTestImports, Except.error.injEq] at h
        subst h
        rw [Print_error r₁ keep fuel S importPath srcDir false p1 p2 e h₁,
          Print_error r₂ keep fuel S importPath srcDir false p1 p2 e h₂]
      | ok pkg =>
        rw [h₁, h₂] at h
        simp [withoutTestImports] at h
    | ok pkg₁ =>
      cases h₂ : r₂ importPath srcDir with
      | error e' =>
        rw [h₁, h₂] at h
        simp [withoutTestImports] at h
      | ok pkg₂ =>
        rw [h₁, h₂] at h
        simp only [withoutTestImports, Except.ok.injEq, Package.mk.injEq, and_true] at h
        obtain ⟨hP, hD, hI⟩ := h
        have hdeps : sortedDeps keep false pkg₁ = sortedDeps keep false pkg₂ := by
          rw [sortedDeps_false, sortedDeps_false, hI]
        have hcall : (fun dep s1 s2 printed' =>
              Print r₁ keep fuel printed' dep pkg₁.Dir false (p2 ++ s1) (p2 ++ s2))
            = (fun dep s1 s2 printed' =>
              Print r₂ keep fuel printed' dep pkg₂.Dir false (p2 ++ s1) (p2 ++ s2)) := by
          funext dep s1 s2 printed'
          rw [hD]
          exact ih printed' dep pkg₂.Dir (p2 ++ s1) (p2 ++ s2)
        by_cases hmem : pkg₁.ImportPath ∈ S
        · rw [Print_seen r₁ keep fuel S importPath srcDir false p1 p2 pkg₁ h₁ hmem,
            Print_seen r₂ keep fuel S importPath srcDir false p1 p2 pkg₂ h₂ (hP ▸ hmem), hP]
        · rw [Print_expand r₁ keep fuel S importPath srcDir false p1 p2 pkg₁ h₁ hmem,
            Print_expand r₂ keep fuel S importPath srcDir false p1 p2 pkg₂ h₂ (hP ▸ hmem),
            hcall, hdeps, hP]

/-- C7: the recursive calls of `Print` pass `withTests = false`, so two resolvers that
agree on the root call and, everywhere else, on all but the `TestImports` give the same
events, printed set and result for every root, flag and depth budget; and with the flag
set, the kept `TestImports` of the root are among its children, each of them resolved
against the root's directory when the root is expanded and the walk returns `nil`. -/
theorem tests_only_at_root (r₁ r₂ : Resolver ε) (keep : FilterFunc) (fuel : Nat)
    (S : List String) (importPath srcDir : String) (withTests : Bool) (p1 p2 : String)
    (hroot : r₁ importPath srcDir = r₂ importPath srcDir)
    (hrest : ∀ a b, withoutTestImports (r₁ a b) = withoutTestImports (r₂ a b)) :
    Print r₁ keep fuel S importPath srcDir withTests p1 p2
      = Print r₂ keep fuel S importPath srcDir withTests p1 p2 ∧
    ∀ pkg, r₁ importPath srcDir = .ok pkg → ∀ p ∈ pkg.TestImports, keep p = true →
      p ∈ sortedDeps keep true pkg ∧
      (pkg.ImportPath ∉ S →
        (Print r₁ keep fuel S importPath srcDir true p1 p2).result = .nil →
        (p, pkg.Dir) ∈ resolves (Print r₁ keep fuel S importPath srcDir true p1 p2).events) := by
  refine ⟨?_, ?_⟩
  · cases fuel with
    | zero => rfl
    | succ fuel =>
      cases h₁ : r₁ importPath srcDir with
      | error e =>
        rw [Print_error r₁ keep fuel S importPath srcDir withTests p1 p2 e h₁,
          Print_error r₂ keep fuel S importPath srcDir withTests p1 p2 e (hroot ▸ h₁)]
      | ok pkg =>
        have hcall : (fun dep s1 s2 printed' =>
              Print r₁ keep fuel printed' dep pkg.Dir false (p2 ++ s1) (p2 ++ s2))
            = (fun dep s1 s2 printed' =>
              Print r₂ keep fuel printed' dep pkg.Dir false (p2 ++ s1) (p2 ++ s2)) := by
          funext dep s1 s2 printed'
          exact Print_false_congr r₁ r₂ keep hrest fuel printed' dep pkg.Dir _ _
        by_cases hmem : pkg.ImportPath ∈ S
        · rw [Print_seen r₁ keep fuel S importPath srcDir withTests p1 p2 pkg h₁ hmem,
            Print_seen r₂ keep fuel S importPath srcDir withTests p1 p2 pkg (hroot ▸ h₁) hmem]
        · rw [Print_expand r₁ keep fuel S importPath srcDir withTests p1 p2 pkg h₁ hmem,
            Print_expand r₂ keep fuel S importPath srcDir withTests p1 p2 pkg (hroot ▸ h₁) hmem,
            hcall]
  · intro pkg hr p hp hkeep
    have hmem : p ∈ sortedDeps keep true pkg :=
      (mem_sortedDeps keep true pkg p).2 ⟨hkeep, Or.inr ⟨rfl, hp⟩⟩
    refine ⟨hmem, ?_⟩
    intro hnew hnil
    obtain ⟨k, rfl⟩ := Print_nil_fuel_pos r₁ keep fuel S importPath srcDir true p1 p2 hnil
    have hsub := (children_sublist_of_nil r₁ keep k S importPath srcDir true p1 p2 pkg hr hnew hnil)
    exact hsub.subset (List.mem_cons_of_mem _ (List.mem_map.2 ⟨p, hmem, rfl⟩))

end Tests

theorem tests_only_at_root_witness :
    Print demoResolver filterDefault 3 [] "app.io" "/" true "" ""
      = Print demoResolverTests filterDefault 3 [] "app.io" "/" true "" "" :=
  (tests_only_at_root demoResolver demoResolverTests filterDefault 3 [] "app.io" "/" true "" ""
    rfl (fun a b => by
      unfold demoResolver demoResolverTests withoutTestImports
      split_ifs <;> rfl)).1

/-! ## The glyphs of the children (C8) -/

section Glyphs

variable {ε : Type}

theorem glyphs_tee {n j : Nat} (h : j < n - 1) : glyphs n j = ("|- ", "|  ") := by
  have : j ≠ n - 1 := by omega
  simp [glyphs, this]

theorem glyphs_corner (n : Nat) : glyphs n (n - 1) = ("`- ", "   ") := by
  simp [glyphs]

/-- C8: the output of an expanded package called with continuation prefix `p2` is its
own line followed by the outputs of the recursive calls on its children, in sorted order.
The call for the child at an index `j` below `n - 1` is made with branch prefix
`p2 + "|- "` and continuation prefix `p2 + "|  "`, the call for the last child (index
`n - 1`) with `p2 + "`- "` and `p2 + "   "`; in the output of each such call the first line
has exactly the branch prefix and every later line starts with the continuation prefix. -/
theorem child_prefixes (r : Resolver ε) (keep : FilterFunc) (fuel : Nat)
    (printed : List String) (importPath srcDir : String) (withTests : Bool) (p1 p2 : String)
    (pkg : Package) (h : r importPath srcDir = .ok pkg) (hnew : pkg.ImportPath ∉ printed) :
    ∃ segs : List (List Event),
      (Print r keep (fuel + 1) printed importPath srcDir withTests p1 p2).events =
        Event.resolve importPath srcDir :: Event.line p1 pkg.ImportPath false :: segs.flatten ∧
      segs.length ≤ (sortedDeps keep withTests pkg).length ∧
      ((Print r keep (fuel + 1) printed importPath srcDir withTests p1 p2).result = .nil →
        segs.length = (sortedDeps keep withTests pkg).length) ∧
      ∀ j dep seg, (sortedDeps keep withTests pkg)[j]? = some dep → segs[j]? = some seg →
        (j < (sortedDeps keep withTests pkg).length - 1 →
          (∃ S', seg = (Print r keep fuel S' dep pkg.Dir false (p2 ++ "|- ")
            (p2 ++ "|  ")).events) ∧
          (prefixes seg = [] ∨ ∃ rest, prefixes seg = (p2 ++ "|- ") :: rest ∧
            ∀ q ∈ rest, ∃ t, q = p2 ++ "|  " ++ t)) ∧
        (j = (sortedDeps keep withTests pkg).length - 1 →
          (∃ S', seg = (Print r keep fuel S' dep pkg.Dir false (p2 ++ "`- ")
            (p2 ++ "   ")).events) ∧
          (prefixes seg = [] ∨ ∃ rest, prefixes seg = (p2 ++ "`- ") :: rest ∧
            ∀ q ∈ rest, ∃ t, q = p2 ++ "   " ++ t)) := by
  obtain ⟨segs, hj, hlen, hnil, hseg⟩ := printDeps_segments
    (fun dep s1 s2 printed' =>
      Print r keep fuel printed' dep pkg.Dir false (p2 ++ s1) (p2 ++ s2))
    (sortedDeps keep withTests pkg).length 0 (sortedDeps keep withTests pkg)
    (pkg.ImportPath :: printed)
  rw [Print_expand r keep fuel printed importPath srcDir withTests p1 p2 pkg h hnew]
  refine ⟨segs, by rw [hj], hlen, hnil, ?_⟩
  intro j dep seg hd hs
  obtain ⟨S', hS'⟩ := hseg j dep seg hd hs
  rw [Nat.zero_add] at hS'
  refine ⟨?_, ?_⟩
  · intro hlt
    rw [glyphs_tee hlt] at hS'
    refine ⟨⟨S', hS'⟩, ?_⟩
    rw [hS']
    exact Print_prefixes r keep fuel S' dep pkg.Dir false (p2 ++ "|- ") (p2 ++ "|  ")
  · intro heq
    rw [heq, glyphs_corner] at hS'
    refine ⟨⟨S', hS'⟩, ?_⟩
    rw [hS']
    exact Print_prefixes r keep fuel S' dep pkg.Dir false (p2 ++ "`- ") (p2 ++ "   ")

theorem child_prefixes_witness :
    (Print demoResolver filterDefault 3 [] "app.io" "/" false "" "").events =
      Event.resolve "app.io" "/" :: Event.line "" "app.io" false ::
        [[Event.resolve "lib.io/a" "/src/app.io", Event.line "|- " "lib.io/a" false,
            Event.resolve "lib.io/b" "/src/lib.io/a", Event.line "|  `- " "lib.io/b" false],
          [Event.resolve "lib.io/b" "/src/app.io", Event.line "`- " "lib.io/b" true]].flatten ∧
    ∃ segs : List (List Event),
      (Print demoResolver filterDefault 3 [] "app.io" "/" false "" "").events =
        Event.resolve "app.io" "/" :: Event.line "" "app.io" false :: segs.flatten :=
  ⟨by decide,
    (child_prefixes demoResolver filterDefault 2 [] "app.io" "/" false "" ""
      ⟨"app.io", "/src/app.io", ["lib.io/a", "lib.io/b"], []⟩ rfl (by decide)).imp
      (fun _ hs => hs.1)⟩

end Glyphs

/-! ## Errors (C9) -/

section Errors

variable {ε : Type}

theorem AllResolved.append {r : Resolver ε} {a b : List Event} (ha : AllResolved r a)
    (hb : AllResolved r b) : AllResolved r (a ++ b) := by
  intro c hc
  rw [resolves_append, List.mem_append] at hc
  rcases hc with hc | hc
  · exact ha c hc
  · exact hb c hc

theorem printDeps_failsAtEnd (r : Resolver ε)
    (call : String → String → String → List String → Run ε)
    (hcall : ∀ dep s1 s2 S, FailsAtEnd r (call dep s1 s2 S)) (n i : Nat)
    (deps S : List String) : FailsAtEnd r (printDeps call n i deps S) := by
  induction deps generalizing i S with
  | nil =>
    rw [printDeps_nil]
    exact ⟨fun e h => by simp at h, fun _ c hc => by simp [resolves] at hc⟩
  | cons dep rest ih =>
    by_cases h1 : (call dep (glyphs n i).1 (glyphs n i).2 S).result = .nil
    · rw [printDeps_cons_nil call n i dep rest S h1]
      have hrun : AllResolved r (call dep (glyphs n i).1 (glyphs n i).2 S).events :=
        (hcall dep _ _ S).2 (fun e he => by rw [h1] at he; cases he)
      obtain ⟨ih1, ih2⟩ := ih (i + 1) (call dep (glyphs n i).1 (glyphs n i).2 S).printed
      refine ⟨?_, ?_⟩
      · intro e he
        obtain ⟨pre, a, b, hev, hr, hpre⟩ := ih1 e he
        exact ⟨_ ++ pre, a, b, by simp only [hev, List.append_assoc], hr, hrun.append hpre⟩
      · intro hne
        exact hrun.append (ih2 hne)
    · rw [printDeps_cons_stop call n i dep rest S h1]
      exact hcall _ _ _ _

theorem Print_failsAtEnd (r : Resolver ε) (keep : FilterFunc) (fuel : Nat) (S : List String)
    (importPath srcDir : String) (withTests : Bool) (p1 p2 : String) :
    FailsAtEnd r (Print r keep fuel S importPath srcDir withTests p1 p2) := by
  induction fuel generalizing S importPath srcDir withTests p1 p2 with
  | zero =>
    rw [Print_zero]
    exact ⟨fun e h => by simp at h, fun _ c hc => by simp [resolves] at hc⟩
  | succ fuel ih =>
    cases hr : r importPath srcDir with
    | error e =>
      rw [Print_error r keep fuel S importPath srcDir withTests p1 p2 e hr]
      refine ⟨?_, fun hne => absurd rfl (hne e)⟩
      intro e' he'
      simp only [Outcome.err.injEq] at he'
      subst he'
      exact ⟨[], importPath, srcDir, rfl, hr, fun c hc => by simp [resolves] at hc⟩
    | ok pkg =>
      have hown : ∀ es, AllResolved r es →
          AllResolved r (Event.resolve importPath srcDir :: Event.line p1 pkg.ImportPath false :: es) := by
        intro es hes c hc
        simp only [resolves, List.mem_cons] at hc
        rcases hc with rfl | hc
        · exact ⟨pkg, hr⟩
        · exact hes c hc
      by_cases hmem : pkg.ImportPath ∈ S
      · rw [Print_seen r keep fuel S importPath srcDir withTests p1 p2 pkg hr hmem]
        refine ⟨fun e h => by simp at h, fun _ c hc => ?_⟩
        simp only [resolves, List.mem_singleton] at hc
        subst hc
        exact ⟨pkg, hr⟩
      · rw [Print_expand r keep fuel S importPath srcDir withTests p1 p2 pkg hr hmem]
        obtain ⟨h1, h2⟩ := printDeps_failsAtEnd r
          (fun dep s1 s2 printed' =>
            Print r keep fuel printed' dep pkg.Dir false (p2 ++ s1) (p2 ++ s2))
          (fun dep s1 s2 S' => ih S' dep pkg.Dir false (p2 ++ s1) (p2 ++ s2))
          (sortedDeps keep withTests pkg).length 0 (sortedDeps keep withTests pkg)
          (pkg.ImportPath :: S)
        refine ⟨?_, fun hne => hown _ (h2 hne)⟩
        intro e he
        obtain ⟨pre, a, b, hev, hra, hpre⟩ := h1 e he
        exact ⟨Event.resolve importPath srcDir :: Event.line p1 pkg.ImportPath false :: pre,
          a, b, by simp only [hev, List.cons_append], hra, hown pre hpre⟩

/-- C9: at any depth budget, `Print` returns an error exactly when some resolver call it
made failed; the error returned is the one of that call, which is the last event of the
run (no call and no line follow it), and every resolver call before it succeeded. -/
theorem error_iff_resolver_failure (r : Resolver ε) (keep : FilterFunc) (fuel : Nat)
    (S : List String) (importPath srcDir : String) (withTests : Bool) (p1 p2 : String) :
    ((∃ e, (Print r keep fuel S importPath srcDir withTests p1 p2).result = .err e) ↔
      ∃ c ∈ resolves (Print r keep fuel S importPath srcDir withTests p1 p2).events,
        ∃ e, r c.1 c.2 = .error e) ∧
    (∀ e, (Print r keep fuel S importPath srcDir withTests p1 p2).result = .err e →
      ∃ pre a b,
        (Print r keep fuel S importPath srcDir withTests p1 p2).events
          = pre ++ [Event.resolve a b] ∧
        r a b = .error e ∧
        ∀ c ∈ resolves pre, ∃ pkg, r c.1 c.2 = .ok pkg) := by
  obtain ⟨h1, h2⟩ := Print_failsAtEnd r keep fuel S importPath srcDir withTests p1 p2
  refine ⟨⟨?_, ?_⟩, h1⟩
  · rintro ⟨e, he⟩
    obtain ⟨pre, a, b, hev, hr, _⟩ := h1 e he
    exact ⟨(a, b), by rw [hev, resolves_append]; simp [resolves], e, hr⟩
  · rintro ⟨c, hc, e, he⟩
    by_contra hne
    obtain ⟨pkg, hpkg⟩ := h2 (fun e' he' => hne ⟨e', he'⟩) c hc
    rw [hpkg] at he
    cases he

end Errors

/-! ## `IsStandardPackage` (C10) -/

theorem SplitN_two (s : String) :
    ∃ rest, SplitN s '/' 2 = firstSegment s :: rest := by
  unfold SplitN SplitNChars firstSegment
  rw [List.span_eq_take_drop]
  cases hd : List.dropWhile (fun c => c != '/') s.toList with
  | nil =>
    refine ⟨[], ?_⟩
    have : List.takeWhile (fun c => c != '/') s.toList = s.toList :=
      List.takeWhile_eq_self_iff.2 (List.dropWhile_eq_nil_iff.1 hd)
    rw [this]
    rfl
  | cons c cs => exact ⟨[String.mk cs], by simp [SplitNChars]⟩

/-- C10: `IsStandardPackage` holds exactly when the first "/"-delimited segment of the
path has no "."; that segment is the text before the first "/", or the whole path when
there is no "/".  So "net/http" is standard, "example.com/x" is not, and "foo/bar.baz",
whose only dot comes after the first "/", is standard. -/
theorem IsStandardPackage_iff (importPath : String) :
    (IsStandardPackage importPath = true ↔ '.' ∉ (firstSegment importPath).toList) ∧
    (∀ pre post, importPath.toList = pre ++ '/' :: post → '/' ∉ pre →
      firstSegment importPath = String.mk pre) ∧
    ('/' ∉ importPath.toList → firstSegment importPath = importPath) ∧
    IsStandardPackage "net/http" = true ∧ IsStandardPackage "example.com/x" = false ∧
    IsStandardPackage "foo/bar.baz" = true := by
  refine ⟨?_, ?_, ?_, by decide, by decide, by decide⟩
  · obtain ⟨rest, h⟩ := SplitN_two importPath
    simp [IsStandardPackage, h, Contains]
  · intro pre post h hpre
    unfold firstSegment
    have hall : ∀ a ∈ pre, (a != '/') = true := by
      intro a ha
      have hne : a ≠ '/' := fun hEq => hpre (hEq ▸ ha)
      simpa using hne
    rw [h, List.takeWhile_append_of_pos hall]
    simp
  · intro h
    unfold firstSegment
    have hall : ∀ a ∈ importPath.toList, (a != '/') = true := by
      intro a ha
      have hne : a ≠ '/' := fun hEq => h (hEq ▸ ha)
      simpa using hne
    rw [List.takeWhile_eq_self_iff.2 hall]
    rfl

/-! ## The filters of `main` (C11) -/

/-- C11: the filter of `--standard` keeps exactly the paths other than "C"; the filter of
default mode keeps exactly the paths other than "C" that `IsStandardPackage` rejects.
Both reject "C", and what default mode keeps, `--standard` keeps too. -/
theorem filters_spec (p : String) :
    (filterStandard p = true ↔ p ≠ "C") ∧
    (filterDefault p = true ↔ p ≠ "C" ∧ IsStandardPackage p = false) ∧
    filterStandard "C" = false ∧ filterDefault "C" = false ∧
    (filterDefault p = true → filterStandard p = true) ∧
    mainFilter true = filterStandard ∧ mainFilter false = filterDefault := by
  refine ⟨by simp [filterStandard], by simp [filterDefault], by decide, by decide, ?_, rfl, rfl⟩
  intro h
  simp only [filterDefault, Bool.and_eq_true] at h
  exact h.1

/-! ## `IsStandardPackage` never indexes out of range (C20) -/

theorem IsStandardPackage_eq (importPath : String) :
    IsStandardPackage importPath = !Contains (firstSegment importPath) '.' := by
  obtain ⟨rest, h⟩ := SplitN_two importPath
  simp [IsStandardPackage, h]

/-- C20: for every string, `strings.SplitN(importPath, "/", 2)` has a first element, so
`x[0]` is in range and `IsStandardPackage` returns the negation of `Contains` on it; the
empty string and every path that begins with "/" are classified as standard. -/
theorem IsStandardPackage_total (importPath : String) :
    SplitN importPath '/' 2 ≠ [] ∧
    (∃ x0 rest, SplitN importPath '/' 2 = x0 :: rest ∧
      IsStandardPackage importPath = !Contains x0 '.') ∧
    1 ≤ (SplitN importPath '/' 2).length ∧ (SplitN importPath '/' 2).length ≤ 2 ∧
    IsStandardPackage "" = true ∧
    IsStandardPackage ("/" ++ importPath) = true := by
  obtain ⟨rest, h⟩ := SplitN_two importPath
  refine ⟨by rw [h]; simp, ⟨_, rest, h, by rw [IsStandardPackage_eq]⟩, by rw [h]; simp, ?_,
    by decide, ?_⟩
  · unfold SplitN SplitNChars
    rw [List.span_eq_take_drop]
    cases List.dropWhile (fun c => c != '/') importPath.toList with
    | nil => simp
    | cons c cs => simp [SplitNChars]
  · rw [IsStandardPackage_eq]
    have : firstSegment ("/" ++ importPath) = "" := by
      unfold firstSegment
      have h1 : ("/" ++ importPath).toList = '/' :: importPath.toList := rfl
      rw [h1]
      rfl
    rw [this]
    decide

/-! ## The printed set (C17, C19) -/

section PrintedSet

variable {ε : Type}

theorem mem_expanded_iff (es : List Event) (p : String) :
    p ∈ expanded es ↔ ∃ q, Event.line q p false ∈ es := by
  induction es with
  | nil => simp [expanded]
  | cons e es ih =>
    cases e with
    | resolve a b => simp [expanded, ih]
    | line q path seen =>
      cases seen with
      | true => simp [expanded, ih]
      | false =>
        simp only [expanded, List.mem_cons, ih, Event.line.injEq, and_true]
        constructor
        · rintro (h | ⟨q', h⟩)
          · exact ⟨q, Or.inl ⟨rfl, h⟩⟩
          · exact ⟨q', Or.inr h⟩
        · rintro ⟨q', h | h⟩
          · exact Or.inl h.2
          · exact Or.inr ⟨q', h⟩

/-- C17: whatever `Print` returns, at any depth budget, every path in the printed set
before the call is in it afterwards (the set is the old one extended by the paths of the
unmarked lines printed); and when the resolution of the call's own package succeeds, its
canonical path is in the printed set afterwards. -/
theorem printed_grows (r : Resolver ε) (keep : FilterFunc) (fuel : Nat) (S : List String)
    (importPath srcDir : String) (withTests : Bool) (p1 p2 : String) :
    (∀ p ∈ S, p ∈ (Print r keep fuel S importPath srcDir withTests p1 p2).printed) ∧
    (Print r keep fuel S importPath srcDir withTests p1 p2).printed
      = (expanded (Print r keep fuel S importPath srcDir withTests p1 p2).events).reverse ++ S ∧
    (∀ pkg, r importPath srcDir = .ok pkg →
      pkg.ImportPath ∈ (Print r keep (fuel + 1) S importPath srcDir withTests p1 p2).printed) := by
  have ht := Print_tracks r keep fuel S importPath srcDir withTests p1 p2
  refine ⟨?_, ht.2, ?_⟩
  · intro p hp
    rw [ht.2]
    exact List.mem_append_right _ hp
  · intro pkg hr
    have ht' := Print_tracks r keep (fuel + 1) S importPath srcDir withTests p1 p2
    obtain ⟨seen, rest, hev⟩ := Print_head r keep fuel S importPath srcDir withTests p1 p2 pkg hr
    have hmem : Event.line p1 pkg.ImportPath seen
        ∈ (Print r keep (fuel + 1) S importPath srcDir withTests p1 p2).events := by
      rw [hev]
      simp
    exact line_mem_printed ht' hmem

/-- C19: in a walk from the empty printed set, at any depth budget and whatever it
returns, a line marked " (see above)" names a path that is on an unmarked line strictly
before it, and the final printed set holds exactly the paths of the unmarked lines. -/
theorem marked_lines_follow_expansion (r : Resolver ε) (keep : FilterFunc) (fuel : Nat)
    (importPath srcDir : String) (withTests : Bool) (p1 p2 : String) :
    (∀ pre q path post,
      (Print r keep fuel [] importPath srcDir withTests p1 p2).events
          = pre ++ Event.line q path true :: post →
        ∃ q', Event.line q' path false ∈ pre) ∧
    (∀ p, p ∈ (Print r keep fuel [] importPath srcDir withTests p1 p2).printed ↔
      ∃ q, Event.line q p false
        ∈ (Print r keep fuel [] importPath srcDir withTests p1 p2).events) ∧
    (Print r keep fuel [] importPath srcDir withTests p1 p2).printed.Nodup := by
  have ht := Print_tracks r keep fuel [] importPath srcDir withTests p1 p2
  refine ⟨?_, ?_, ?_⟩
  · intro pre q path post hes
    have hc := ht.1
    rw [hes] at hc
    have := (consistent_line hc).1 rfl
    simpa [mem_expanded_iff] using this
  · intro p
    rw [ht.2, List.append_nil, List.mem_reverse, mem_expanded_iff]
  · rw [ht.2, List.append_nil, List.nodup_reverse]
    exact (consistent_nodup ht.1).1

end PrintedSet

/-! ## Order and multiplicity of the import lists do not matter (C18) -/

section Permutation

variable {ε : Type}

/-- C18: two resolvers whose answers agree, call by call, up to the order and the
multiplicity of the entries of `Imports` and of `TestImports` give the same events (lines
and resolver calls), the same printed set and the same result, for every call of `Print`
and every depth budget. -/
theorem print_independent_of_import_order (r₁ r₂ : Resolver ε) (keep : FilterFunc)
    (hsame : ∀ a b, SameSets (r₁ a b) (r₂ a b)) (fuel : Nat) (S : List String)
    (importPath srcDir : String) (withTests : Bool) (p1 p2 : String) :
    Print r₁ keep fuel S importPath srcDir withTests p1 p2
      = Print r₂ keep fuel S importPath srcDir withTests p1 p2 := by
  induction fuel generalizing S importPath srcDir withTests p1 p2 with
  | zero => rfl
  | succ fuel ih =>
    have h := hsame importPath srcDir
    cases h₁ : r₁ importPath srcDir with
    | error e =>
      cases h₂ : r₂ importPath srcDir with
      | error e' =>
        rw [h₁, h₂] at h
        simp only [SameSets] at h
        subst h
        rw [Print_error r₁ keep fuel S importPath srcDir withTests p1 p2 e h₁,
          Print_error r₂ keep fuel S importPath srcDir withTests p1 p2 e h₂]
      | ok pkg =>
        rw [h₁, h₂] at h
        simp [SameSets] at h
    | ok pkg₁ =>
      cases h₂ : r₂ importPath srcDir with
      | error e' =>
        rw [h₁, h₂] at h
        simp [SameSets] at h
      | ok pkg₂ =>
        rw [h₁, h₂] at h
        simp only [SameSets] at h
        obtain ⟨hP, hD, hI, hT⟩ := h
        have hdeps : sortedDeps keep withTests pkg₁ = sortedDeps keep withTests pkg₂ :=
          sorted_lt_unique (sortedDeps_sorted keep withTests pkg₁)
            (sortedDeps_sorted keep withTests pkg₂)
            (fun p => by rw [mem_sortedDeps, mem_sortedDeps, hI p, hT p])
        have hcall : (fun dep s1 s2 printed' =>
              Print r₁ keep fuel printed' dep pkg₁.Dir false (p2 ++ s1) (p2 ++ s2))
            = (fun dep s1 s2 printed' =>
              Print r₂ keep fuel printed' dep pkg₂.Dir false (p2 ++ s1) (p2 ++ s2)) := by
          funext dep s1 s2 printed'
          rw [hD]
          exact ih printed' dep pkg₂.Dir false (p2 ++ s1) (p2 ++ s2)
        by_cases hmem : pkg₁.ImportPath ∈ S
        · rw [Print_seen r₁ keep fuel S importPath srcDir withTests p1 p2 pkg₁ h₁ hmem,
            Print_seen r₂ keep fuel S importPath srcDir withTests p1 p2 pkg₂ h₂ (hP ▸ hmem), hP]
        · rw [Print_expand r₁ keep fuel S importPath srcDir withTests p1 p2 pkg₁ h₁ hmem,
            Print_expand r₂ keep fuel S importPath srcDir withTests p1 p2 pkg₂ h₂ (hP ▸ hmem),
            hcall, hdeps, hP]

theorem print_independent_of_import_order_witness :
    Print demoResolver filterDefault 3 [] "app.io" "/" false "" ""
      = Print demoResolverShuffled filterDefault 3 [] "app.io" "/" false "" "" :=
  print_independent_of_import_order demoResolver demoResolverShuffled filterDefault
    (fun a b => by
      unfold demoResolver demoResolverShuffled
      split_ifs <;> simp [SameSets])
    3 [] "app.io" "/" false "" ""

end Permutation

/-! ## Termination on finitely many canonical paths (C14) -/

section Termination

variable {ε : Type}

theorem unprinted_mono (U : List String) {S S' : List String} (h : ∀ p ∈ S, p ∈ S') :
    unprinted U S' ≤ unprinted U S := by
  unfold unprinted
  apply List.Sublist.length_le
  apply List.monotone_filter_right
  intro p hp
  simp only [decide_eq_true_eq] at hp ⊢
  exact fun hS => hp (h p hS)

theorem unprinted_cons_lt (U : List String) {S : List String} {P : String} (hU : P ∈ U)
    (hS : P ∉ S) : unprinted U (P :: S) < unprinted U S := by
  induction U with
  | nil => simp at hU
  | cons x xs ih =>
    have hmono : unprinted xs (P :: S) ≤ unprinted xs S :=
      unprinted_mono xs (fun p hp => List.mem_cons_of_mem _ hp)
    by_cases hx : x = P
    · subst hx
      have h1 : unprinted (x :: xs) (x :: S) = unprinted xs (x :: S) := by
        simp [unprinted, List.filter_cons]
      have h2 : unprinted (x :: xs) S = unprinted xs S + 1 := by
        simp [unprinted, List.filter_cons, hS]
      omega
    · have hP : P ∈ xs := by
        rcases List.mem_cons.1 hU with h | h
        · exact absurd h.symm hx
        · exact h
      have ih' := ih hP
      by_cases hxS : x ∈ S
      · have h1 : unprinted (x :: xs) (P :: S) = unprinted xs (P :: S) := by
          simp [unprinted, List.filter_cons, hxS]
        have h2 : unprinted (x :: xs) S = unprinted xs S := by
          simp [unprinted, List.filter_cons, hxS]
        omega
      · have h1 : unprinted (x :: xs) (P :: S) = unprinted xs (P :: S) + 1 := by
          simp [unprinted, List.filter_cons, hxS, hx]
        have h2 : unprinted (x :: xs) S = unprinted xs S + 1 := by
          simp [unprinted, List.filter_cons, hxS]
        omega

/-- The loop does not run out of budget when none of its calls does, the calls being made
on printed sets that satisfy an invariant every call preserves. -/
theorem printDeps_not_outOfFuel (call : String → String → String → List String → Run ε)
    (Inv : List String → Prop)
    (hcall : ∀ dep s1 s2 S, Inv S →
      (call dep s1 s2 S).result ≠ .outOfFuel ∧ Inv (call dep s1 s2 S).printed)
    (n i : Nat) (deps S : List String) (hS : Inv S) :
    (printDeps call n i deps S).result ≠ .outOfFuel := by
  induction deps generalizing i S with
  | nil => simp [printDeps_nil]
  | cons dep rest ih =>
    by_cases h1 : (call dep (glyphs n i).1 (glyphs n i).2 S).result = .nil
    · rw [printDeps_cons_nil call n i dep rest S h1]
      exact ih (i + 1) _ (hcall dep _ _ S hS).2
    · rw [printDeps_cons_stop call n i dep rest S h1]
      exact (hcall dep _ _ S hS).1

/-- A loop whose calls all finish within the budget runs the same with calls that agree
with them whenever they finish. -/
theorem printDeps_congr_finished (call call' : String → String → String → List String → Run ε)
    (hcall : ∀ dep s1 s2 S, (call dep s1 s2 S).result ≠ .outOfFuel →
      call' dep s1 s2 S = call dep s1 s2 S)
    (n i : Nat) (deps S : List String)
    (h : (printDeps call n i deps S).result ≠ .outOfFuel) :
    printDeps call' n i deps S = printDeps call n i deps S := by
  induction deps generalizing i S with
  | nil => simp [printDeps_nil]
  | cons dep rest ih =>
    by_cases h1 : (call dep (glyphs n i).1 (glyphs n i).2 S).result = .nil
    · have e := hcall dep (glyphs n i).1 (glyphs n i).2 S (by rw [h1]; simp)
      rw [printDeps_cons_nil call n i dep rest S h1] at h ⊢
      rw [printDeps_cons_nil call' n i dep rest S (by rw [e]; exact h1), e, ih (i + 1) _ h]
    · rw [printDeps_cons_stop call n i dep rest S h1] at h ⊢
      have e := hcall dep (glyphs n i).1 (glyphs n i).2 S h
      rw [printDeps_cons_stop call' n i dep rest S (by rw [e]; exact h1), e]

/-- Once a run finishes within the budget, a larger budget changes nothing. -/
theorem Print_succ_of_finished (r : Resolver ε) (keep : FilterFunc) (fuel : Nat)
    (S : List String) (importPath srcDir : String) (withTests : Bool) (p1 p2 : String)
    (h : (Print r keep fuel S importPath srcDir withTests p1 p2).result ≠ .outOfFuel) :
    Print r keep (fuel + 1) S importPath srcDir withTests p1 p2
      = Print r keep fuel S importPath srcDir withTests p1 p2 := by
  induction fuel generalizing S importPath srcDir withTests p1 p2 with
  | zero => simp [Print_zero] at h
  | succ fuel ih =>
    cases hr : r importPath srcDir with
    | error e =>
      rw [Print_error r keep (fuel + 1) S importPath srcDir withTests p1 p2 e hr,
        Print_error r keep fuel S importPath srcDir withTests p1 p2 e hr]
    | ok pkg =>
      by_cases hmem : pkg.ImportPath ∈ S
      · rw [Print_seen r keep (fuel + 1) S importPath srcDir withTests p1 p2 pkg hr hmem,
          Print_seen r keep fuel S importPath srcDir withTests p1 p2 pkg hr hmem]
      · rw [Print_expand r keep fuel S importPath srcDir withTests p1 p2 pkg hr hmem] at h
        simp only at h
        rw [Print_expand r keep (fuel + 1) S importPath srcDir withTests p1 p2 pkg hr hmem,
          Print_expand r keep fuel S importPath srcDir withTests p1 p2 pkg hr hmem,
          printDeps_congr_finished _ _
            (fun dep s1 s2 S' hfin => ih S' dep pkg.Dir false (p2 ++ s1) (p2 ++ s2) hfin) _ _ _ _ h]

/-- C14: when every canonical path the resolver can return is in the finite list `U`, a
call of `Print` on the printed set `S` finishes (returns `nil` or an error) within any depth
budget above the number of entries of `U` not in `S`, in particular above the length of
`U`, cycles or not: a call that goes on to its children has first put a new path of `U`
into the printed set.  A larger budget then changes nothing. -/
theorem print_terminates_on_finite (r : Resolver ε) (keep : FilterFunc) (U : List String)
    (hU : ∀ a b pkg, r a b = .ok pkg → pkg.ImportPath ∈ U) (fuel : Nat) (S : List String)
    (importPath srcDir : String) (withTests : Bool) (p1 p2 : String)
    (hfuel : unprinted U S < fuel) :
    (Print r keep fuel S importPath srcDir withTests p1 p2).result ≠ .outOfFuel ∧
    Print r keep (fuel + 1) S importPath srcDir withTests p1 p2
      = Print r keep fuel S importPath srcDir withTests p1 p2 ∧
    unprinted U S ≤ U.length := by
  have hmain : ∀ (fuel : Nat) (S : List String) (importPath srcDir : String) (withTests : Bool)
      (p1 p2 : String), unprinted U S < fuel →
      (Print r keep fuel S importPath srcDir withTests p1 p2).result ≠ .outOfFuel := by
    intro fuel
    induction fuel with
    | zero => intro S _ _ _ _ _ h; omega
    | succ fuel ih =>
      intro S importPath srcDir withTests p1 p2 hlt
      cases hr : r importPath srcDir with
      | error e => simp [Print_error r keep fuel S importPath srcDir withTests p1 p2 e hr]
      | ok pkg =>
        by_cases hmem : pkg.ImportPath ∈ S
        · simp [Print_seen r keep fuel S importPath srcDir withTests p1 p2 pkg hr hmem]
        · rw [Print_expand r keep fuel S importPath srcDir withTests p1 p2 pkg hr hmem]
          have hdec := unprinted_cons_lt U (hU _ _ pkg hr) hmem
          refine printDeps_not_outOfFuel _ (fun S' => unprinted U S' < fuel) ?_ _ _ _ _
            (by omega)
          intro dep s1 s2 S' hS'
          refine ⟨ih S' dep pkg.Dir false _ _ hS', ?_⟩
          have ht := Print_tracks r keep fuel S' dep pkg.Dir false (p2 ++ s1) (p2 ++ s2)
          have hsub : ∀ p ∈ S', p ∈ (Print r keep fuel S' dep pkg.Dir false (p2 ++ s1)
              (p2 ++ s2)).printed := by
            intro p hp
            rw [ht.2]
            exact List.mem_append_right _ hp
          exact lt_of_le_of_lt (unprinted_mono U hsub) hS'
  have h1 := hmain fuel S importPath srcDir withTests p1 p2 hfuel
  exact ⟨h1, Print_succ_of_finished r keep fuel S importPath srcDir withTests p1 p2 h1,
    List.length_filter_le _ _⟩

theorem print_terminates_on_finite_witness :
    (Print cycleResolver filterDefault 3 [] "a.io" "/" false "" "").result ≠ .outOfFuel ∧
    render (Print cycleResolver filterDefault 3 [] "a.io" "/" false "" "").events
      = ["a.io", "|- a.io (see above)", "`- b.io", "   `- a.io (see above)"] :=
  ⟨(print_terminates_on_finite cycleResolver filterDefault ["a.io", "b.io"]
      (fun a b pkg h => by
        unfold cycleResolver at h
        split_ifs at h <;> (cases h; simp))
      3 [] "a.io" "/" false "" "" (by decide)).1, by decide⟩

end Termination

/-! ## Where the recursive calls come from (C13) -/

section Origin

variable {ε : Type}

theorem originated_mono (r : Resolver ε) (keep : FilterFunc) {L L' : List (String × String)}
    (es : List Event) (hL : ∀ c ∈ L, c ∈ L') (h : Originated r keep L es) :
    Originated r keep L' es := by
  induction es generalizing L L' with
  | nil => trivial
  | cons e es ih =>
    cases e with
    | resolve a b =>
      obtain ⟨⟨c, hc, hi⟩, h2⟩ := h
      refine ⟨⟨c, hL c hc, hi⟩, ih (fun x hx => ?_) h2⟩
      rcases List.mem_cons.1 hx with rfl | hx
      · exact List.mem_cons_self _ _
      · exact List.mem_cons_of_mem _ (hL x hx)
    | line q path seen => exact ih hL h

theorem originated_append (r : Resolver ε) (keep : FilterFunc) (L : List (String × String))
    (a b : List Event) (ha : Originated r keep L a) (hb : Originated r keep L b) :
    Originated r keep L (a ++ b) := by
  induction a generalizing L with
  | nil => exact hb
  | cons e es ih =>
    cases e with
    | resolve x y =>
      exact ⟨ha.1, ih _ ha.2 (originated_mono r keep b (fun c hc => List.mem_cons_of_mem _ hc) hb)⟩
    | line q path seen => exact ih L ha hb

/-- A resolver call in an originated event list comes from a package resolved by one of
the given earlier calls or by a call before it in the list. -/
theorem originated_split (r : Resolver ε) (keep : FilterFunc) {L : List (String × String)}
    {pre post : List Event} {a b : String}
    (h : Originated r keep L (pre ++ Event.resolve a b :: post)) :
    ∃ c, (c ∈ L ∨ c ∈ resolves pre) ∧ ImportedBy r keep a b c := by
  induction pre generalizing L with
  | nil =>
    obtain ⟨⟨c, hc, hi⟩, _⟩ := h
    exact ⟨c, Or.inl hc, hi⟩
  | cons e es ih =>
    cases e with
    | resolve x y =>
      obtain ⟨c, hc, hi⟩ := ih h.2
      refine ⟨c, ?_, hi⟩
      rcases hc with hc | hc
      · rcases List.mem_cons.1 hc with rfl | hc
        · exact Or.inr (by simp [resolves])
        · exact Or.inl hc
      · exact Or.inr (by simp [resolves, hc])
    | line q path seen =>
      obtain ⟨c, hc, hi⟩ := ih (L := L) h
      exact ⟨c, by simpa [resolves] using hc, hi⟩

/-- A call with a positive budget begins by resolving its own arguments. -/
theorem Print_resolve_head (r : Resolver ε) (keep : FilterFunc) (fuel : Nat) (S : List String)
    (importPath srcDir : String) (withTests : Bool) (p1 p2 : String) :
    ∃ rest, (Print r keep (fuel + 1) S importPath srcDir withTests p1 p2).events
      = Event.resolve importPath srcDir :: rest := by
  cases hr : r importPath srcDir with
  | error e => exact ⟨[], by rw [Print_error r keep fuel S importPath srcDir withTests p1 p2 e hr]⟩
  | ok pkg =>
    obtain ⟨seen, rest, h⟩ := Print_head r keep fuel S importPath srcDir withTests p1 p2 pkg hr
    exact ⟨_, h⟩

theorem printDeps_originated (r : Resolver ε) (keep : FilterFunc)
    (call : String → String → String → List String → Run ε) (dir : String)
    (hcall : ∀ dep s1 s2 S, (call dep s1 s2 S).events = [] ∨
      ∃ rest, (call dep s1 s2 S).events = Event.resolve dep dir :: rest ∧
        Originated r keep [(dep, dir)] rest)
    (L : List (String × String)) (n i : Nat) (deps S : List String)
    (hdeps : ∀ dep ∈ deps, ∃ c ∈ L, ImportedBy r keep dep dir c) :
    Originated r keep L (printDeps call n i deps S).events := by
  induction deps generalizing i S with
  | nil => simp [printDeps_nil, Originated]
  | cons dep rest ih =>
    have hrun : Originated r keep L (call dep (glyphs n i).1 (glyphs n i).2 S).events := by
      rcases hcall dep (glyphs n i).1 (glyphs n i).2 S with h0 | ⟨tl, h1, h2⟩
      · rw [h0]
        trivial
      · rw [h1]
        refine ⟨hdeps dep (List.mem_cons_self _ _), originated_mono r keep tl ?_ h2⟩
        intro c hc
        rw [List.mem_singleton.1 hc]
        exact List.mem_cons_self _ _
    by_cases h1 : (call dep (glyphs n i).1 (glyphs n i).2 S).result = .nil
    · rw [printDeps_cons_nil call n i dep rest S h1]
      exact originated_append r keep L _ _ hrun
        (ih (i + 1) _ (fun d hd => hdeps d (List.mem_cons_of_mem _ hd)))
    · rw [printDeps_cons_stop call n i dep rest S h1]
      exact hrun

/-- After its own resolver call, every resolver call of a run is a recursive call of a
package resolved earlier in the run. -/
theorem Print_originated (r : Resolver ε) (keep : FilterFunc) (fuel : Nat) (S : List String)
    (importPath srcDir : String) (withTests : Bool) (p1 p2 : String) :
    (Print r keep fuel S importPath srcDir withTests p1 p2).events = [] ∨
    ∃ rest, (Print r keep fuel S importPath srcDir withTests p1 p2).events
        = Event.resolve importPath srcDir :: rest ∧
      Originated r keep [(importPath, srcDir)] rest := by
  induction fuel generalizing S importPath srcDir withTests p1 p2 with
  | zero => exact Or.inl rfl
  | succ fuel ih =>
    refine Or.inr ?_
    cases hr : r importPath srcDir with
    | error e =>
      exact ⟨[], by rw [Print_error r keep fuel S importPath srcDir withTests p1 p2 e hr], trivial⟩
    | ok pkg =>
      by_cases hmem : pkg.ImportPath ∈ S
      · exact ⟨[Event.line p1 pkg.ImportPath true],
          by rw [Print_seen r keep fuel S importPath srcDir withTests p1 p2 pkg hr hmem],
          by simp [Originated]⟩
      · refine ⟨_, by
          rw [Print_expand r keep fuel S importPath srcDir withTests p1 p2 pkg hr hmem], ?_⟩
        show Originated r keep [(importPath, srcDir)] _
        apply printDeps_originated r keep _ pkg.Dir
          (fun dep s1 s2 S' => ih S' dep pkg.Dir false (p2 ++ s1) (p2 ++ s2))
        intro dep hdep
        rw [mem_sortedDeps] at hdep
        refine ⟨(importPath, srcDir), List.mem_singleton_self _, pkg, hr, hdep.1, ?_, rfl⟩
        rcases hdep.2 with h | h
        · exact Or.inl h
        · exact Or.inr h.2

/-- The output of an expanded package, given a budget of at least two, is its own line
followed by the outputs of the calls on its sorted children, each of which begins by
resolving the child against the package's directory. -/
theorem expanded_children_segments (r : Resolver ε) (keep : FilterFunc) (fuel : Nat)
    (printed : List String) (importPath srcDir : String) (withTests : Bool) (p1 p2 : String)
    (pkg : Package) (h : r importPath srcDir = .ok pkg) (hnew : pkg.ImportPath ∉ printed) :
    ∃ segs : List (List Event),
      (Print r keep (fuel + 2) printed importPath srcDir withTests p1 p2).events =
        Event.resolve importPath srcDir :: Event.line p1 pkg.ImportPath false :: segs.flatten ∧
      segs.length ≤ (sortedDeps keep withTests pkg).length ∧
      ((Print r keep (fuel + 2) printed importPath srcDir withTests p1 p2).result = .nil →
        segs.length = (sortedDeps keep withTests pkg).length) ∧
      ∀ (j : Nat) (dep : String) (seg : List Event),
        (sortedDeps keep withTests pkg)[j]? = some dep → segs[j]? = some seg →
        ∃ rest, seg = Event.resolve dep pkg.Dir :: rest := by
  obtain ⟨segs, hj, hlen, hnil, hseg⟩ := printDeps_segments
    (fun dep s1 s2 printed' =>
      Print r keep (fuel + 1) printed' dep pkg.Dir false (p2 ++ s1) (p2 ++ s2))
    (sortedDeps keep withTests pkg).length 0 (sortedDeps keep withTests pkg)
    (pkg.ImportPath :: printed)
  rw [Print_expand r keep (fuel + 1) printed importPath srcDir withTests p1 p2 pkg h hnew]
  refine ⟨segs, by rw [hj], hlen, hnil, ?_⟩
  intro j dep seg hd hs
  obtain ⟨S', hS'⟩ := hseg j dep seg hd hs
  obtain ⟨rest, hrest⟩ := Print_resolve_head r keep fuel S' dep pkg.Dir false
    (p2 ++ (glyphs (sortedDeps keep withTests pkg).length (0 + j)).1)
    (p2 ++ (glyphs (sortedDeps keep withTests pkg).length (0 + j)).2)
  exact ⟨rest, hS'.trans hrest⟩

/-- A resolver call of a run is the call's own, at the very start, or a recursive call of
a package resolved earlier in the run. -/
theorem Print_resolve_origin (r : Resolver ε) (keep : FilterFunc) (fuel : Nat)
    (S : List String) (importPath srcDir : String) (withTests : Bool) (p1 p2 : String)
    (pre post : List Event) (a b : String)
    (hes : (Print r keep fuel S importPath srcDir withTests p1 p2).events
      = pre ++ Event.resolve a b :: post) :
    (pre = [] ∧ a = importPath ∧ b = srcDir) ∨
    ∃ c ∈ resolves pre, ImportedBy r keep a b c := by
  rcases Print_originated r keep fuel S importPath srcDir withTests p1 p2 with h0 | ⟨rest, h1, h2⟩
  · rw [h0] at hes
    simp at hes
  · rw [h1] at hes
    cases pre with
    | nil =>
      simp only [List.nil_append, List.cons.injEq, Event.resolve.injEq] at hes
      exact Or.inl ⟨rfl, hes.1.1.symm, hes.1.2.symm⟩
    | cons e pre' =>
      simp only [List.cons_append, List.cons.injEq] at hes
      obtain ⟨he, hrest⟩ := hes
      rw [hrest] at h2
      obtain ⟨c, hc, hi⟩ := originated_split r keep h2
      refine Or.inr ⟨c, ?_, hi⟩
      rw [← he]
      rcases hc with hc | hc
      · rw [List.mem_singleton.1 hc]
        simp [resolves]
      · simp [resolves, hc]

/-- C13: every resolver call of a run other than its first one, the call's own, has the
form `(child, pkg.Dir)` where `pkg` is a package resolved earlier in the run that imports
`child` (a kept entry of its `Imports` or `TestImports`); and the output of an expanded
package is its line followed by the outputs of the calls on its children, each starting
with the resolution of the child against the directory of that package. -/
theorem children_resolved_in_package_dir (r : Resolver ε) (keep : FilterFunc) (fuel : Nat)
    (S : List String) (importPath srcDir : String) (withTests : Bool) (p1 p2 : String) :
    (∀ pre a b post,
      (Print r keep fuel S importPath srcDir withTests p1 p2).events
          = pre ++ Event.resolve a b :: post →
        (pre = [] ∧ a = importPath ∧ b = srcDir) ∨
        ∃ c ∈ resolves pre, ∃ pkg, r c.1 c.2 = .ok pkg ∧ keep a = true ∧
          (a ∈ pkg.Imports ∨ a ∈ pkg.TestImports) ∧ b = pkg.Dir) ∧
    (∀ pkg, r importPath srcDir = .ok pkg → pkg.ImportPath ∉ S →
      ∃ segs : List (List Event),
        (Print r keep (fuel + 2) S importPath srcDir withTests p1 p2).events =
          Event.resolve importPath srcDir :: Event.line p1 pkg.ImportPath false ::
            segs.flatten ∧
        segs.length ≤ (sortedDeps keep withTests pkg).length ∧
        ((Print r keep (fuel + 2) S importPath srcDir withTests p1 p2).result = .nil →
          segs.length = (sortedDeps keep withTests pkg).length) ∧
        ∀ (j : Nat) (dep : String) (seg : List Event),
          (sortedDeps keep withTests pkg)[j]? = some dep → segs[j]? = some seg →
          ∃ rest, seg = Event.resolve dep pkg.Dir :: rest) := by
  refine ⟨?_, fun pkg h hnew =>
    expanded_children_segments r keep fuel S importPath srcDir withTests p1 p2 pkg h hnew⟩
  intro pre a b post hes
  exact Print_resolve_origin r keep fuel S importPath srcDir withTests p1 p2 pre post a b hes

end Origin

/-! ## What the filters keep out of the tree (C12) -/

section Filtered

variable {ε : Type}

theorem paths_append (a b : List Event) : paths (a ++ b) = paths a ++ paths b := by
  induction a with
  | nil => rfl
  | cons e es ih =>
    cases e with
    | resolve ip d => simpa [paths] using ih
    | line q path seen => simpa [paths] using ih

theorem mem_paths_flatten {segs : List (List Event)} {path : String}
    (h : path ∈ paths segs.flatten) : ∃ seg ∈ segs, path ∈ paths seg := by
  induction segs with
  | nil => simp [paths] at h
  | cons a l ih =>
    rw [List.flatten_cons, paths_append, List.mem_append] at h
    rcases h with h | h
    · exact ⟨a, List.mem_cons_self _ _, h⟩
    · obtain ⟨seg, hs, hp⟩ := ih h
      exact ⟨seg, List.mem_cons_of_mem _ hs, hp⟩

/-- The first line of a run names the canonical path of the call's own package; every
later line names the canonical path of a package that a kept import path resolves to. -/
theorem Print_paths (r : Resolver ε) (keep : FilterFunc) (fuel : Nat) (S : List String)
    (importPath srcDir : String) (withTests : Bool) (p1 p2 : String) :
    paths (Print r keep fuel S importPath srcDir withTests p1 p2).events = [] ∨
    ∃ pkg rest, r importPath srcDir = .ok pkg ∧
      paths (Print r keep fuel S importPath srcDir withTests p1 p2).events
        = pkg.ImportPath :: rest ∧
      ∀ path ∈ rest, ∃ a b child, keep a = true ∧ r a b = .ok child ∧
        child.ImportPath = path := by
  induction fuel generalizing S importPath srcDir withTests p1 p2 with
  | zero => exact Or.inl (by simp [Print_zero, paths])
  | succ fuel ih =>
    cases hr : r importPath srcDir with
    | error e =>
      exact Or.inl (by
        simp [Print_error r keep fuel S importPath srcDir withTests p1 p2 e hr, paths])
    | ok pkg =>
      by_cases hmem : pkg.ImportPath ∈ S
      · exact Or.inr ⟨pkg, [], rfl, by
          simp [Print_seen r keep fuel S importPath srcDir withTests p1 p2 pkg hr hmem, paths],
          by simp⟩
      · rw [Print_expand r keep fuel S importPath srcDir withTests p1 p2 pkg hr hmem]
        simp only [paths]
        refine Or.inr ⟨pkg, _, rfl, rfl, ?_⟩
        obtain ⟨segs, hj, _, _, hseg⟩ := printDeps_segments
          (fun dep s1 s2 printed' =>
            Print r keep fuel printed' dep pkg.Dir false (p2 ++ s1) (p2 ++ s2))
          (sortedDeps keep withTests pkg).length 0 (sortedDeps keep withTests pkg)
          (pkg.ImportPath :: S)
        rw [hj]
        intro path hpath
        obtain ⟨seg, hsegmem, hp⟩ := mem_paths_flatten hpath
        obtain ⟨j, hjlt, hjeq⟩ := List.getElem_of_mem hsegmem
        have hjlt' : j < (sortedDeps keep withTests pkg).length := by omega
        obtain ⟨S', hS'⟩ := hseg j ((sortedDeps keep withTests pkg)[j]) seg
          (List.getElem?_eq_getElem hjlt') (by rw [List.getElem?_eq_getElem hjlt, hjeq])
        have hkeep : keep ((sortedDeps keep withTests pkg)[j]) = true :=
          ((mem_sortedDeps keep withTests pkg _).1 (List.getElem_mem hjlt')).1
        rw [hS'] at hp
        rcases ih S' ((sortedDeps keep withTests pkg)[j]) pkg.Dir false
          (p2 ++ (glyphs (sortedDeps keep withTests pkg).length (0 + j)).1)
          (p2 ++ (glyphs (sortedDeps keep withTests pkg).length (0 + j)).2)
          with h0 | ⟨child, rest, hc, h1, h2⟩
        · rw [h0] at hp
          simp at hp
        · rw [h1] at hp
          rcases List.mem_cons.1 hp with rfl | hp
          · exact ⟨_, _, child, hkeep, hc, rfl⟩
          · exact h2 path hp

end Filtered

section FilteredTree

variable {ε : Type}

theorem mainFilter_true {withStandard : Bool} {p : String}
    (h : mainFilter withStandard p = true) :
    p ≠ "C" ∧ (withStandard = false → IsStandardPackage p = false) := by
  cases withStandard with
  | true =>
    simp only [mainFilter, if_true, filterStandard, bne_iff_ne] at h
    exact ⟨h, fun hf => by cases hf⟩
  | false =>
    simp only [mainFilter, Bool.false_eq_true, if_false, filterDefault, Bool.and_eq_true,
      bne_iff_ne, Bool.not_eq_true'] at h
    exact ⟨h.1, fun _ => h.2⟩

/-- C12, as stated, fails.  In default mode the walk of `app` prints "app" and
"`- app/sub": the root is never filtered, and the kept import `./sub` is shown under its
canonical path, so both lines name a path without "." in its first segment.  With the
filter of `--standard` the walk stops at the first import that cannot be resolved, and
`os`, imported by the expanded package `app`, is on no line. -/
theorem standard_paths_claim_fails :
    (Print aliasResolver filterDefault 2 [] "app" "/" false "" "").events =
      [Event.resolve "app" "/", Event.line "" "app" false,
        Event.resolve "./sub" "/src/app", Event.line "`- " "app/sub" false] ∧
    IsStandardPackage "app" = true ∧ IsStandardPackage "app/sub" = true ∧
    ¬ NoStandardLine (Print aliasResolver filterDefault 2 [] "app" "/" false "" "").events ∧
    Print aliasResolver filterStandard 2 [] "app" "/" false "" "" =
      ⟨[Event.resolve "app" "/", Event.line "" "app" false,
        Event.resolve "./sub" "/src/app", Event.line "|- " "app/sub" false,
        Event.resolve "fmt" "/src/app"], ["app/sub", "app"],
        .err "cannot find package fmt"⟩ ∧
    "os" ∉ paths (Print aliasResolver filterStandard 2 [] "app" "/" false "" "").events := by
  refine ⟨by decide, by decide, by decide, ?_, by decide, by decide⟩
  intro h
  have := h "app" (by decide)
  exact absurd this (by decide)

/-- C12, amended: with either filter of `main`, every resolver call of a walk after the
root's own is on an import path other than "C" and, in default mode, with a "." in its
first segment; a line below the root's shows the canonical path such a kept import
resolves to, so when canonical paths equal the requested ones no line below the root's
names "C" or, in default mode, a path without "." in its first segment.  With the filter
of `--standard`, when the walk returns `nil`, every import other than "C" of every
expanded package is resolved against the package's directory and printed on a line under
its canonical path. -/
theorem filtered_paths_in_tree (r : Resolver ε) (withStandard : Bool) (fuel : Nat)
    (S : List String) (importPath srcDir : String) (withTests : Bool) (p1 p2 : String) :
    (∀ pre a b post,
      (Print r (mainFilter withStandard) fuel S importPath srcDir withTests p1 p2).events
          = pre ++ Event.resolve a b :: post → pre ≠ [] →
        a ≠ "C" ∧ (withStandard = false → IsStandardPackage a = false)) ∧
    ((∀ a b pkg, r a b = .ok pkg → pkg.ImportPath = a) →
      ∀ path ∈ (paths (Print r (mainFilter withStandard) fuel S importPath srcDir withTests
          p1 p2).events).tail,
        path ≠ "C" ∧ (withStandard = false → IsStandardPackage path = false)) ∧
    ((Print r filterStandard fuel S importPath srcDir withTests p1 p2).result = .nil →
      ∀ P ∈ expanded (Print r filterStandard fuel S importPath srcDir withTests p1 p2).events,
        ∃ (c : String × String) (pkg : Package), r c.1 c.2 = .ok pkg ∧ pkg.ImportPath = P ∧
          ∀ p ∈ pkg.Imports, p ≠ "C" → ∃ child q seen, r p pkg.Dir = .ok child ∧
            [Event.resolve p pkg.Dir, Event.line q child.ImportPath seen]
              <:+: (Print r filterStandard fuel S importPath srcDir withTests p1 p2).events) := by
  refine ⟨?_, ?_, ?_⟩
  · intro pre a b post hes hpre
    rcases Print_resolve_origin r (mainFilter withStandard) fuel S importPath srcDir withTests
      p1 p2 pre post a b hes with h | ⟨c, _, pkg, _, hkeep, _⟩
    · exact absurd h.1 hpre
    · exact mainFilter_true hkeep
  · intro hcanon path hpath
    rcases Print_paths r (mainFilter withStandard) fuel S importPath srcDir withTests p1 p2
      with h0 | ⟨pkg, rest, _, h1, h2⟩
    · rw [h0] at hpath
      simp at hpath
    · rw [h1, List.tail_cons] at hpath
      obtain ⟨a, b, child, hkeep, hr, hp⟩ := h2 path hpath
      rw [← hp, hcanon a b child hr]
      exact mainFilter_true hkeep
  · intro hnil P hP
    obtain ⟨c, pkg, _, hr, hPeq, hdeps⟩ :=
      Print_walked r filterStandard fuel S importPath srcDir withTests p1 p2 hnil P hP
    refine ⟨(c.1, c.2.1), pkg, hr, hPeq, ?_⟩
    intro p hp hC
    exact hdeps p ((mem_sortedDeps filterStandard c.2.2 pkg p).2
      ⟨by simpa [filterStandard] using hC, Or.inl hp⟩)

end FilteredTree

/-! ## A root that imports only standard packages (C16) -/

section StandardOnly

variable {ε : Type}

/-- C16, amended: for a root that resolves and whose imports all pass
`IsStandardPackage`, the walk from the empty printed set with the default filter and the
test flag off makes the root's resolver call only, prints the root's line only (with empty
prefix: exactly the canonical path) and returns `nil`; with the filter of `--standard` the
children of the root are its imports other than "C", in strictly increasing order, the
output is the root's line followed by the outputs of the calls on them in that order, each
starting with the resolution of the child against the root's directory, and when the walk
returns `nil` there is such a call for every one of them. -/
theorem standard_only_root (r : Resolver ε) (fuel : Nat) (importPath srcDir : String)
    (p1 p2 : String) (pkg : Package) (h : r importPath srcDir = .ok pkg)
    (hstd : ∀ p ∈ pkg.Imports, IsStandardPackage p = true) :
    Print r filterDefault (fuel + 1) [] importPath srcDir false p1 p2 =
      ⟨[Event.resolve importPath srcDir, Event.line p1 pkg.ImportPath false],
        [pkg.ImportPath], .nil⟩ ∧
    render (Print r filterDefault (fuel + 1) [] importPath srcDir false "" p2).events
      = [pkg.ImportPath] ∧
    (sortedDeps filterStandard false pkg).Sorted (· < ·) ∧
    (∀ p, p ∈ sortedDeps filterStandard false pkg ↔ p ∈ pkg.Imports ∧ p ≠ "C") ∧
    ((Print r filterStandard (fuel + 2) [] importPath srcDir false p1 p2).result = .nil →
      AllImportsWalked pkg
        (Print r filterStandard (fuel + 2) [] importPath srcDir false p1 p2).events) ∧
    ∃ segs : List (List Event),
      (Print r filterStandard (fuel + 2) [] importPath srcDir false p1 p2).events =
        Event.resolve importPath srcDir :: Event.line p1 pkg.ImportPath false :: segs.flatten ∧
      segs.length ≤ (sortedDeps filterStandard false pkg).length ∧
      ((Print r filterStandard (fuel + 2) [] importPath srcDir false p1 p2).result = .nil →
        segs.length = (sortedDeps filterStandard false pkg).length) ∧
      ∀ (j : Nat) (dep : String) (seg : List Event),
        (sortedDeps filterStandard false pkg)[j]? = some dep → segs[j]? = some seg →
        ∃ rest, seg = Event.resolve dep pkg.Dir :: rest := by
  have hnone : sortedDeps filterDefault false pkg = [] := by
    apply List.eq_nil_iff_forall_not_mem.2
    intro p hp
    rw [mem_sortedDeps] at hp
    obtain ⟨hkeep, hmem⟩ := hp
    have hin : p ∈ pkg.Imports := by
      rcases hmem with hm | hm
      · exact hm
      · exact absurd hm.1 (by simp)
    have := hstd p hin
    simp [filterDefault, this] at hkeep
  have hrun : ∀ q, Print r filterDefault (fuel + 1) [] importPath srcDir false q p2 =
      ⟨[Event.resolve importPath srcDir, Event.line q pkg.ImportPath false],
        [pkg.ImportPath], .nil⟩ := by
    intro q
    rw [Print_expand r filterDefault fuel [] importPath srcDir false q p2 pkg h (by simp), hnone]
    simp [printDeps_nil]
  have hmemStd : ∀ p, p ∈ sortedDeps filterStandard false pkg ↔ p ∈ pkg.Imports ∧ p ≠ "C" := by
    intro p
    rw [mem_sortedDeps]
    simp only [filterStandard, bne_iff_ne, ne_eq, Bool.false_eq_true, false_and, or_false]
    exact and_comm
  refine ⟨hrun p1, ?_, sortedDeps_sorted filterStandard false pkg, hmemStd, ?_,
    expanded_children_segments r filterStandard fuel [] importPath srcDir false p1 p2 pkg h
      (by simp)⟩
  · rw [hrun ""]
    simp [render, Event.text]
  · intro hnil p hp hC
    have hsub := children_sublist_of_nil r filterStandard (fuel + 1) [] importPath srcDir false
      p1 p2 pkg h (by simp) hnil
    exact hsub.subset (List.mem_cons_of_mem _
      (List.mem_map.2 ⟨p, (hmemStd p).2 ⟨hp, hC⟩, rfl⟩))

theorem standard_only_root_witness :
    Print toolResolver filterDefault 1 [] "x.io/tool" "/" false "" "" =
      ⟨[Event.resolve "x.io/tool" "/", Event.line "" "x.io/tool" false], ["x.io/tool"], .nil⟩ ∧
    render (Print toolResolver filterStandard 3 [] "x.io/tool" "/" false "" "").events
      = ["x.io/tool", "|- fmt", "|  `- os", "`- os (see above)"] :=
  ⟨(standard_only_root toolResolver 0 "x.io/tool" "/" "" "" toolPackage rfl (by decide)).1,
    by decide⟩

end StandardOnly

/-! ## The format of the lines (C15) -/

section LineFormat

variable {ε : Type}

theorem printDepsAt_erase (callAt : String → String → String → List String → DepthRun ε)
    (call : String → String → String → List String → Run ε)
    (hcall : ∀ dep s1 s2 S, (callAt dep s1 s2 S).erase = call dep s1 s2 S)
    (n i : Nat) (deps S : List String) :
    (printDepsAt callAt n i deps S).erase = printDeps call n i deps S := by
  induction deps generalizing i S with
  | nil => simp [printDepsAt, printDeps, DepthRun.erase]
  | cons dep rest ih =>
    have h := hcall dep (glyphs n i).1 (glyphs n i).2 S
    cases hrun : callAt dep (glyphs n i).1 (glyphs n i).2 S with
    | mk es S' res =>
      rw [hrun] at h
      simp only [DepthRun.erase] at h
      cases res with
      | nil =>
        have h1 : (call dep (glyphs n i).1 (glyphs n i).2 S).result = .nil := by rw [← h]
        rw [printDeps_cons_nil call n i dep rest S h1, ← h]
        simp only [printDepsAt, hrun, DepthRun.erase, List.map_append]
        have ih' := ih (i + 1) S'
        simp only [DepthRun.erase] at ih'
        rw [← ih']
      | err e =>
        have h1 : (call dep (glyphs n i).1 (glyphs n i).2 S).result ≠ .nil := by
          rw [← h]; simp
        rw [printDeps_cons_stop call n i dep rest S h1, ← h]
        simp only [printDepsAt, hrun, DepthRun.erase]
      | outOfFuel =>
        have h1 : (call dep (glyphs n i).1 (glyphs n i).2 S).result ≠ .nil := by
          rw [← h]; simp
        rw [printDeps_cons_stop call n i dep rest S h1, ← h]
        simp only [printDepsAt, hrun, DepthRun.erase]

/-- The depth counter is a ghost: without the depths, `PrintAt` is `Print`. -/
theorem PrintAt_erase (r : Resolver ε) (keep : FilterFunc) (fuel depth : Nat) (S : List String)
    (importPath srcDir : String) (withTests : Bool) (p1 p2 : String) :
    (PrintAt r keep fuel depth S importPath srcDir withTests p1 p2).erase
      = Print r keep fuel S importPath srcDir withTests p1 p2 := by
  induction fuel generalizing depth S importPath srcDir withTests p1 p2 with
  | zero => rfl
  | succ fuel ih =>
    cases hr : r importPath srcDir with
    | error e =>
      rw [Print_error r keep fuel S importPath srcDir withTests p1 p2 e hr]
      simp [PrintAt, hr, DepthRun.erase]
    | ok pkg =>
      by_cases hmem : pkg.ImportPath ∈ S
      · rw [Print_seen r keep fuel S importPath srcDir withTests p1 p2 pkg hr hmem]
        simp [PrintAt, hr, hmem, DepthRun.erase]
      · rw [Print_expand r keep fuel S importPath srcDir withTests p1 p2 pkg hr hmem]
        have hloop := printDepsAt_erase
          (fun dep s1 s2 printed' =>
            PrintAt r keep fuel (depth + 1) printed' dep pkg.Dir false (p2 ++ s1) (p2 ++ s2))
          (fun dep s1 s2 printed' =>
            Print r keep fuel printed' dep pkg.Dir false (p2 ++ s1) (p2 ++ s2))
          (fun dep s1 s2 S' => ih (depth + 1) S' dep pkg.Dir false (p2 ++ s1) (p2 ++ s2))
          (sortedDeps keep withTests pkg).length 0 (sortedDeps keep withTests pkg)
          (pkg.ImportPath :: S)
        rw [← hloop]
        simp [PrintAt, hr, hmem, DepthRun.erase]

theorem glyphs_cases (n i : Nat) :
    glyphs n i = ("|- ", "|  ") ∨ glyphs n i = ("`- ", "   ") := by
  unfold glyphs
  split
  · exact Or.inl rfl
  · exact Or.inr rfl

/-- The events of the annotated loop are events of its calls. -/
theorem printDepsAt_mem (call : String → String → String → List String → DepthRun ε)
    (n i : Nat) (deps S : List String) (e : Nat × Event)
    (h : e ∈ (printDepsAt call n i deps S).events) :
    ∃ dep j S', e ∈ (call dep (glyphs n j).1 (glyphs n j).2 S').events := by
  induction deps generalizing i S with
  | nil => simp [printDepsAt] at h
  | cons dep rest ih =>
    cases hrun : call dep (glyphs n i).1 (glyphs n i).2 S with
    | mk es S' res =>
      cases res with
      | nil =>
        simp only [printDepsAt, hrun, List.mem_append] at h
        rcases h with h | h
        · exact ⟨dep, i, S, by rw [hrun]; exact h⟩
        · exact ih (i + 1) S' h
      | err e' =>
        simp only [printDepsAt, hrun] at h
        exact ⟨dep, i, S, by rw [hrun]; exact h⟩
      | outOfFuel =>
        simp only [printDepsAt, hrun] at h
        exact ⟨dep, i, S, by rw [hrun]; exact h⟩

/-- In a run called at depth `d` with prefixes `p1` and `p2`, every event has depth at
least `d`; a line at depth `d` has prefix `p1`, and a line at a depth `d + k` below has
prefix `p2` followed by a branch prefix of depth `k`. -/
theorem PrintAt_shape (r : Resolver ε) (keep : FilterFunc) (fuel d : Nat) (S : List String)
    (importPath srcDir : String) (withTests : Bool) (p1 p2 : String) :
    ∀ e ∈ (PrintAt r keep fuel d S importPath srcDir withTests p1 p2).events,
      (e.1 = d ∧ ∀ q path seen, e.2 = Event.line q path seen → q = p1) ∨
      (d < e.1 ∧ ∀ q path seen, e.2 = Event.line q path seen →
        ∃ t, IsBranchPrefix (e.1 - d) t ∧ q = p2 ++ t) := by
  induction fuel generalizing d S importPath srcDir withTests p1 p2 with
  | zero => simp [PrintAt]
  | succ fuel ih =>
    intro e he
    cases hr : r importPath srcDir with
    | error e' =>
      simp only [PrintAt, hr, List.mem_singleton] at he
      subst he
      exact Or.inl ⟨rfl, fun q path seen h => by cases h⟩
    | ok pkg =>
      by_cases hmem : pkg.ImportPath ∈ S
      · simp only [PrintAt, hr, hmem, if_true, List.mem_cons, List.mem_singleton,
          List.not_mem_nil, or_false] at he
        rcases he with rfl | rfl
        · exact Or.inl ⟨rfl, fun q path seen h => by cases h⟩
        · exact Or.inl ⟨rfl, fun q path seen h => by cases h; rfl⟩
      · simp only [PrintAt, hr, hmem, if_false, List.mem_cons] at he
        rcases he with rfl | rfl | he
        · exact Or.inl ⟨rfl, fun q path seen h => by cases h⟩
        · exact Or.inl ⟨rfl, fun q path seen h => by cases h; rfl⟩
        · obtain ⟨dep, j, S', hmem'⟩ := printDepsAt_mem _ _ _ _ _ e he
          refine Or.inr ?_
          have hg := glyphs_cases (sortedDeps keep withTests pkg).length j
          rcases ih (d + 1) S' dep pkg.Dir false
            (p2 ++ (glyphs (sortedDeps keep withTests pkg).length j).1)
            (p2 ++ (glyphs (sortedDeps keep withTests pkg).length j).2) e hmem'
            with ⟨hk, hq⟩ | ⟨hk, hq⟩
          · refine ⟨by omega, ?_⟩
            intro q path seen heq
            have := hq q path seen heq
            refine ⟨(glyphs (sortedDeps keep withTests pkg).length j).1,
              ⟨[], (glyphs (sortedDeps keep withTests pkg).length j).1, by
                simp only [List.length_nil]; omega, by simp, ?_, by
                simp [concatGlyphs]⟩, this⟩
            rcases hg with hg | hg <;> rw [hg] <;> simp
          · refine ⟨by omega, ?_⟩
            intro q path seen heq
            obtain ⟨t, ⟨gs, last, hlen, hgs, hlast, ht⟩, hqt⟩ := hq q path seen heq
            refine ⟨(glyphs (sortedDeps keep withTests pkg).length j).2 ++ t,
              ⟨(glyphs (sortedDeps keep withTests pkg).length j).2 :: gs, last, by
                simp only [List.length_cons]; omega, ?_, hlast, by
                rw [ht, concatGlyphs, String.append_assoc]⟩, by
              rw [hqt, String.append_assoc]⟩
            intro g hg'
            rcases List.mem_cons.1 hg' with rfl | hg'
            · rcases hg with hg | hg <;> rw [hg] <;> simp
            · exact hgs g hg'

end LineFormat

section LineFormatClaim

variable {ε : Type}

theorem mem_paths {es : List Event} {q path : String} {seen : Bool}
    (h : Event.line q path seen ∈ es) : path ∈ paths es := by
  induction es with
  | nil => simp at h
  | cons e es ih =>
    rcases List.mem_cons.1 h with h' | h'
    · rw [← h']
      simp [paths]
    · cases e with
      | resolve a b => simpa [paths] using ih h'
      | line q' path' seen' => exact List.mem_cons_of_mem _ (ih h')

/-- C15: in a walk started with empty prefixes from the empty printed set, with `PrintAt`
recording the depth of every call (and being `Print` otherwise): when the root resolves,
the first line is the root's canonical path with empty prefix, at depth 0, and everything
after it is at depth 1 or more; every line at a depth `k` of 1 or more has as prefix
`k - 1` glyphs from "|  ", "   " followed by one glyph from "|- ", "`- "; every line names
a canonical path returned by the resolver and reads prefix, path and, when marked,
" (see above)". -/
theorem line_format (r : Resolver ε) (keep : FilterFunc) (fuel : Nat)
    (importPath srcDir : String) (withTests : Bool) :
    (PrintAt r keep fuel 0 [] importPath srcDir withTests "" "").erase
      = Print r keep fuel [] importPath srcDir withTests "" "" ∧
    (∀ pkg, r importPath srcDir = .ok pkg →
      ∃ rest, (PrintAt r keep (fuel + 1) 0 [] importPath srcDir withTests "" "").events
          = (0, Event.resolve importPath srcDir) :: (0, Event.line "" pkg.ImportPath false)
            :: rest ∧
        (∀ e ∈ rest, 1 ≤ e.1) ∧
        render (Print r keep (fuel + 1) [] importPath srcDir withTests "" "").events
          = pkg.ImportPath :: render (rest.map Prod.snd)) ∧
    (∀ k q path seen, (k, Event.line q path seen)
        ∈ (PrintAt r keep fuel 0 [] importPath srcDir withTests "" "").events →
      ((k = 0 ∧ q = "") ∨ (1 ≤ k ∧ IsBranchPrefix k q)) ∧
      (∃ a b pkg, r a b = .ok pkg ∧ pkg.ImportPath = path) ∧
      Event.text (Event.line q path seen)
        = some (if seen = true then q ++ path ++ " (see above)" else q ++ path)) := by
  have herase := PrintAt_erase r keep fuel 0 [] importPath srcDir withTests "" ""
  refine ⟨herase, ?_, ?_⟩
  · intro pkg hr
    have he := PrintAt_erase r keep (fuel + 1) 0 [] importPath srcDir withTests "" ""
    have hev : (PrintAt r keep (fuel + 1) 0 [] importPath srcDir withTests "" "").events
        = (0, Event.resolve importPath srcDir) :: (0, Event.line "" pkg.ImportPath false) ::
          (printDepsAt
            (fun dep s1 s2 printed' =>
              PrintAt r keep fuel (0 + 1) printed' dep pkg.Dir false ("" ++ s1) ("" ++ s2))
            (sortedDeps keep withTests pkg).length 0 (sortedDeps keep withTests pkg)
            [pkg.ImportPath]).events := by
      simp only [PrintAt, hr, List.not_mem_nil, if_false]
    refine ⟨_, hev, ?_, ?_⟩
    · intro e hmem
      obtain ⟨dep, j, S', hmem'⟩ := printDepsAt_mem _ _ _ _ _ e hmem
      rcases PrintAt_shape r keep fuel 1 S' dep pkg.Dir false _ _ e hmem' with h | h
      · omega
      · omega
    · rw [← he]
      simp only [PrintAt, hr, List.not_mem_nil, if_false, DepthRun.erase, List.map_cons, render,
        List.filterMap_cons, Event.text]
      rfl
  · intro k q path seen hmem
    refine ⟨?_, ?_, by cases seen <;> rfl⟩
    · rcases PrintAt_shape r keep fuel 0 [] importPath srcDir withTests "" "" _ hmem
        with ⟨hk, hq⟩ | ⟨hk, hq⟩
      · exact Or.inl ⟨hk, hq q path seen rfl⟩
      · obtain ⟨t, ht, hqt⟩ := hq q path seen rfl
        refine Or.inr ⟨hk, ?_⟩
        have : q = t := by rw [hqt]; exact String.empty_append t
        rw [this]
        simpa using ht
    · have hline : Event.line q path seen
          ∈ (Print r keep fuel [] importPath srcDir withTests "" "").events := by
        rw [← herase]
        exact List.mem_map.2 ⟨(k, Event.line q path seen), hmem, rfl⟩
      have hp := mem_paths hline
      rcases Print_paths r keep fuel [] importPath srcDir withTests "" ""
        with h0 | ⟨pkg, rest, hr, h1, h2⟩
      · rw [h0] at hp
        simp at hp
      · rw [h1] at hp
        rcases List.mem_cons.1 hp with rfl | hp
        · exact ⟨importPath, srcDir, pkg, hr, rfl⟩
        · obtain ⟨a, b, child, _, hc, hpath⟩ := h2 path hp
          exact ⟨a, b, child, hc, hpath⟩

end LineFormatClaim

/-- The depths recorded for the scenario `app.io`, `lib.io/a`, `lib.io/b`. -/
theorem PrintAt_demo :
    (PrintAt demoResolver filterDefault 3 0 [] "app.io" "/" false "" "").events =
      [(0, Event.resolve "app.io" "/"), (0, Event.line "" "app.io" false),
        (1, Event.resolve "lib.io/a" "/src/app.io"), (1, Event.line "|- " "lib.io/a" false),
        (2, Event.resolve "lib.io/b" "/src/lib.io/a"),
        (2, Event.line "|  `- " "lib.io/b" false),
        (1, Event.resolve "lib.io/b" "/src/app.io"), (1, Event.line "`- " "lib.io/b" true)] := by
  decide

/-! ## Where the claims about complete walks fail as stated (C3, C16) -/

section Incomplete

variable {ε : Type}

/-- Once a run finishes within the budget, any larger budget gives the same run. -/
theorem Print_add_of_finished (r : Resolver ε) (keep : FilterFunc) (fuel : Nat)
    (S : List String) (importPath srcDir : String) (withTests : Bool) (p1 p2 : String)
    (h : (Print r keep fuel S importPath srcDir withTests p1 p2).result ≠ .outOfFuel) (k : Nat) :
    Print r keep (fuel + k) S importPath srcDir withTests p1 p2
      = Print r keep fuel S importPath srcDir withTests p1 p2 := by
  induction k with
  | zero => rfl
  | succ k ih =>
    rw [← Nat.add_assoc,
      Print_succ_of_finished r keep (fuel + k) S importPath srcDir withTests p1 p2
        (by rw [ih]; exact h), ih]

theorem localResolver_cases {importPath srcDir : String} {pkg : Package}
    (h : localResolver importPath srcDir = .ok pkg) :
    (importPath = "." ∧ pkg = ⟨".", "/w", ["./a", "./b"], []⟩) ∨
    (importPath = "./b" ∧ srcDir = "/w" ∧ pkg = ⟨"./b", "/w/b", ["./a"], []⟩) ∨
    (importPath = "./a" ∧ srcDir = "/w" ∧ pkg = ⟨"./a", "/w/a", [], []⟩) ∨
    (importPath = "./a" ∧ srcDir = "/w/b" ∧ pkg = ⟨"./a", "/w/b/a", ["c.io/dep"], []⟩) ∨
    (importPath = "c.io/dep" ∧ pkg = ⟨"c.io/dep", "/gopath/src/c.io/dep", [], []⟩) := by
  unfold localResolver at h
  split_ifs at h with h1 h2 h3 h4 h5
  · exact Or.inl ⟨h1, (Except.ok.inj h).symm⟩
  · exact Or.inr (Or.inl ⟨h2.1, h2.2, (Except.ok.inj h).symm⟩)
  · exact Or.inr (Or.inr (Or.inl ⟨h3.1, h3.2, (Except.ok.inj h).symm⟩))
  · exact Or.inr (Or.inr (Or.inr (Or.inl ⟨h4.1, h4.2, (Except.ok.inj h).symm⟩)))
  · exact Or.inr (Or.inr (Or.inr (Or.inr ⟨h5, (Except.ok.inj h).symm⟩)))

/-- The recursive calls of `localResolver`: each goes down in rank and resolves. -/
theorem localResolver_calls {c c' : Call} (h : Calls localResolver filterDefault c c') :
    localRank c' < localRank c ∧ ∃ pkg, localResolver c'.1 c'.2.1 = .ok pkg := by
  obtain ⟨pkg, hr, hdep, hdir, _⟩ := h
  rw [mem_sortedDeps] at hdep
  rcases localResolver_cases hr with ⟨h1, rfl⟩ | ⟨h1, h2, rfl⟩ | ⟨h1, h2, rfl⟩ |
    ⟨h1, h2, rfl⟩ | ⟨h1, rfl⟩
  · have hc : c'.1 = "./a" ∨ c'.1 = "./b" := by simpa using hdep.2
    simp only at hdir
    rcases hc with hc | hc
    · exact ⟨by simp [localRank, h1, hc, hdir], by simp [localResolver, hc, hdir]⟩
    · exact ⟨by simp [localRank, h1, hc, hdir], by simp [localResolver, hc, hdir]⟩
  · have hc : c'.1 = "./a" := by simpa using hdep.2
    simp only at hdir
    exact ⟨by simp [localRank, h1, h2, hc, hdir], by simp [localResolver, hc, hdir]⟩
  · simp at hdep
  · have hc : c'.1 = "c.io/dep" := by simpa using hdep.2
    simp only at hdir
    exact ⟨by simp [localRank, h1, h2, hc, hdir], by simp [localResolver, hc]⟩
  · simp at hdep

/-- C3, as stated, fails.  The graph of `localResolver` has no cycle and every reachable
resolution succeeds, `c.io/dep` is reachable from the root (through `./b` and its own
`./a`), yet at every depth budget of three or more the walk returns `nil` having printed
".", "|- ./a", "`- ./b", "   `- ./a (see above)": the second `./a` has the canonical path
of the first, so it is not expanded, and `c.io/dep` is never resolved or printed. -/
theorem walk_misses_shadowed_package :
    WellFounded (fun c' c : Call =>
      Reach localResolver filterDefault localRoot c ∧ Calls localResolver filterDefault c c') ∧
    (∀ c, Reach localResolver filterDefault localRoot c →
      ∃ pkg, localResolver c.1 c.2.1 = .ok pkg) ∧
    Reach localResolver filterDefault localRoot ("c.io/dep", "/w/b/a", false) ∧
    (∀ k, Print localResolver filterDefault (3 + k) [] "." "/w" false "" "" =
      ⟨[Event.resolve "." "/w", Event.line "" "." false,
        Event.resolve "./a" "/w", Event.line "|- " "./a" false,
        Event.resolve "./b" "/w", Event.line "`- " "./b" false,
        Event.resolve "./a" "/w/b", Event.line "   `- " "./a" true],
        ["./b", "./a", "."], .nil⟩) ∧
    ¬ VisitsAllReachable localResolver filterDefault localRoot := by
  have hrun : ∀ k, Print localResolver filterDefault (3 + k) [] "." "/w" false "" "" =
      ⟨[Event.resolve "." "/w", Event.line "" "." false,
        Event.resolve "./a" "/w", Event.line "|- " "./a" false,
        Event.resolve "./b" "/w", Event.line "`- " "./b" false,
        Event.resolve "./a" "/w/b", Event.line "   `- " "./a" true],
        ["./b", "./a", "."], .nil⟩ := by
    intro k
    have h3 : Print localResolver filterDefault 3 [] "." "/w" false "" "" =
        ⟨[Event.resolve "." "/w", Event.line "" "." false,
          Event.resolve "./a" "/w", Event.line "|- " "./a" false,
          Event.resolve "./b" "/w", Event.line "`- " "./b" false,
          Event.resolve "./a" "/w/b", Event.line "   `- " "./a" true],
          ["./b", "./a", "."], .nil⟩ := by decide
    rw [Print_add_of_finished localResolver filterDefault 3 [] "." "/w" false "" ""
      (by rw [h3]; simp) k, h3]
  have hreach : Reach localResolver filterDefault localRoot ("c.io/dep", "/w/b/a", false) := by
    have e1 : Calls localResolver filterDefault localRoot ("./b", "/w", false) :=
      ⟨⟨".", "/w", ["./a", "./b"], []⟩, rfl, by decide, rfl, rfl⟩
    have e2 : Calls localResolver filterDefault ("./b", "/w", false) ("./a", "/w/b", false) :=
      ⟨⟨"./b", "/w/b", ["./a"], []⟩, rfl, by decide, rfl, rfl⟩
    have e3 : Calls localResolver filterDefault ("./a", "/w/b", false)
        ("c.io/dep", "/w/b/a", false) :=
      ⟨⟨"./a", "/w/b/a", ["c.io/dep"], []⟩, rfl, by decide, rfl, rfl⟩
    exact ((Relation.ReflTransGen.single e1).tail e2).tail e3
  refine ⟨?_, ?_, hreach, hrun, ?_⟩
  · exact Subrelation.wf (fun {_ _} h => (localResolver_calls h.2).1)
      (InvImage.wf localRank Nat.lt_wfRel.wf)
  · intro c hc
    induction hc with
    | refl => exact ⟨_, rfl⟩
    | tail _ hbc _ => exact (localResolver_calls hbc).2
  · rintro ⟨N, hN⟩
    have h := (hN (3 + N) (by omega)).2 ("c.io/dep", "/w/b/a", false)
      ⟨"c.io/dep", "/gopath/src/c.io/dep", [], []⟩ hreach rfl
    have hrunN := hrun N
    simp only [localRoot] at h
    rw [hrunN] at h
    exact absurd h (by decide)

/-- C16, as stated, fails.  The root `x.io/tool` resolves and imports only the standard
packages `os` and `fmt`; with the filter of `--standard`, at every depth budget of two or
more, the walk resolves `fmt` first, returns its error, and never resolves `os`. -/
theorem standard_walk_stops_at_failure :
    brokenToolResolver "x.io/tool" "/" = .ok brokenToolPackage ∧
    (∀ p ∈ brokenToolPackage.Imports, IsStandardPackage p = true) ∧
    (∀ k, Print brokenToolResolver filterStandard (2 + k) [] "x.io/tool" "/" false "" "" =
      ⟨[Event.resolve "x.io/tool" "/", Event.line "" "x.io/tool" false,
        Event.resolve "fmt" "/src/x.io/tool"], ["x.io/tool"],
        .err "cannot find package fmt"⟩) ∧
    "os" ∈ brokenToolPackage.Imports ∧ "os" ≠ "C" ∧
    ∀ k, ¬ AllImportsWalked brokenToolPackage
      (Print brokenToolResolver filterStandard (2 + k) [] "x.io/tool" "/" false "" "").events := by
  have hrun : ∀ k,
      Print brokenToolResolver filterStandard (2 + k) [] "x.io/tool" "/" false "" "" =
      ⟨[Event.resolve "x.io/tool" "/", Event.line "" "x.io/tool" false,
        Event.resolve "fmt" "/src/x.io/tool"], ["x.io/tool"],
        .err "cannot find package fmt"⟩ := by
    intro k
    have h2 : Print brokenToolResolver filterStandard 2 [] "x.io/tool" "/" false "" "" =
        ⟨[Event.resolve "x.io/tool" "/", Event.line "" "x.io/tool" false,
          Event.resolve "fmt" "/src/x.io/tool"], ["x.io/tool"],
          .err "cannot find package fmt"⟩ := by decide
    rw [Print_add_of_finished brokenToolResolver filterStandard 2 [] "x.io/tool" "/" false "" ""
      (by rw [h2]; simp) k, h2]
  refine ⟨rfl, by decide, hrun, by decide, by decide, ?_⟩
  intro k hall
  have h := hall "os" (by decide) (by decide)
  rw [hrun k] at h
  exact absurd h (by decide)

end Incomplete

end GoImportTree
